import Mathlib

/-! DLSummonCalculator: the summon-probability recursion of `calculator.cpp`

A shallow embedding of `calculator.cpp` and the properties of it that the
specification states.

Modelling conventions.

* `double` is modelled by `ℚ`: every statement is about exact arithmetic.
* `int` is modelled by `Int`. The integer division `r_up / 10` of C++ truncates
  toward zero, so it is `Int.tdiv`. No `int` operation of the program can
  overflow: `r_up + 1`, `r_up + 10`, `summons - 1` and `summons - 10` are only
  evaluated after the guard `summons <= 0 || r_up >= 110` has failed.
* `pow(x, n)` with a literal natural exponent is `x ^ n`.
* `pdi **memo` is modelled as a partial map from (row, column) to a cell; a
  cell that is not allocated reads as `none`. An access to memory that is not
  allocated (undefined behaviour in C++) makes `probability` return `none`.
* The two recursive calls inside one C++ expression are unsequenced; the
  embedding evaluates them left to right.
* `probabilityLog` is `probability` with a ghost log of its reads and writes of
  `memo`, and `probabilityFuel` is `probability` with a budget for the depth of
  the recursion; `probabilityLog_erase` and `probabilityFuel_eq` relate both to
  `probability`.
-/

namespace DLSummon

/-- The type `pdi` of the source: `pair<double, short int>`. -/
abbrev pdi := ℚ × Int

/-- The constant `BASE`: base rate of a 5* pull. -/
def BASE : ℚ := 0.04

/-- The constant `RATE`: base rate of the featured units. -/
def RATE : ℚ := 0.01

/-- The sub-expression `(r_up / 10) * 0.005` shared by the three single-draw
functions: the `int` quotient is converted to `double` and scaled. -/
def pity (r_up : Int) : ℚ := ((Int.tdiv r_up 10 : Int) : ℚ) * 0.005

/-- The function `ft_prob`: probability of a featured unit on one summon. -/
def ft_prob (r_up : Int) : ℚ :=
  let multiplier : ℚ := 1.0 + pity r_up / BASE
  multiplier * RATE

/-- The function `nft_prob`: probability of a non-featured 5* on one summon. -/
def nft_prob (r_up : Int) : ℚ :=
  BASE + pity r_up - ft_prob r_up

/-- The function `n_prob`: probability of no 5* on one summon. -/
def n_prob (r_up : Int) : ℚ :=
  1.0 - (BASE + pity r_up)

/-- The function `ft_guaranteed_prob`: featured share of a guaranteed 5*. -/
def ft_guaranteed_prob : ℚ := RATE / BASE

/-- The function `tfold_ft_prob`: probability of a featured 5* on a tenfold. -/
def tfold_ft_prob (r_up : Int) : ℚ :=
  if r_up ≥ 100 then
    1.0 - ((1.0 - ft_guaranteed_prob) * (1.0 - ft_prob r_up) ^ 9)
  else
    1.0 - (1.0 - ft_prob r_up) ^ 10

/-- The function `tfold_n_prob`: probability of no 5* on a tenfold. -/
def tfold_n_prob (r_up : Int) : ℚ :=
  if r_up ≥ 100 then 0.0 else (n_prob r_up) ^ 10

/-- The function `tfold_nft_prob`: probability of at least one 5*, none of them
featured, on a tenfold. -/
def tfold_nft_prob (r_up : Int) : ℚ :=
  if r_up ≥ 100 then
    1.0 - tfold_ft_prob r_up
  else
    (1.0 - (n_prob r_up) ^ 10) - tfold_ft_prob r_up

/-- The value `single_success` that `probability` computes at a state, given the
function `rec` that answers its recursive calls. -/
def single_success (rec : Int → Int → ℚ) (summons r_up : Int) : ℚ :=
  ft_prob r_up + nft_prob r_up * rec (summons - 1) 0
    + n_prob r_up * rec (summons - 1) (r_up + 1)

/-- The value `tenfold_success` that `probability` computes at a state, given
the function `rec` that answers its recursive calls. -/
def tenfold_success (rec : Int → Int → ℚ) (summons r_up : Int) : ℚ :=
  tfold_ft_prob r_up + tfold_nft_prob r_up * rec (summons - 10) 0
    + tfold_n_prob r_up * rec (summons - 10) (r_up + 10)

/-- The decision step of `probability` (the `if` that ends the function): the
cell that is stored for the state, the value first and the action tag second. -/
def decision (summons : Int) (single tenfold : ℚ) : pdi :=
  if summons < 10 ∨ single > tenfold then (single, -1) else (tenfold, 1)

/-- The plain recursion: the body of `probability` with the memo table taken
out. It is the function `value(summons, p)` of the specification, and the
reference that the memoised `probability` is compared with. -/
def value (summons r_up : Int) : ℚ :=
  if _h : summons ≤ 0 ∨ r_up ≥ 110 then 0.0
  else
    let single := ft_prob r_up + nft_prob r_up * value (summons - 1) 0
      + n_prob r_up * value (summons - 1) (r_up + 1)
    let tenfold := tfold_ft_prob r_up + tfold_nft_prob r_up * value (summons - 10) 0
      + tfold_n_prob r_up * value (summons - 10) (r_up + 10)
    (decision summons single tenfold).1
termination_by summons.toNat
decreasing_by all_goals (simp_wf; omega)

/-- The action tag that the decision step gives a state: `-1` for a single
summon, `1` for a tenfold. -/
def action (summons r_up : Int) : Int :=
  (decision summons (single_success value summons r_up)
    (tenfold_success value summons r_up)).2

/-- The memo table behind `pdi **memo`: `memo r c` is the cell `memo[r][c]`,
or `none` where no cell is allocated. -/
abbrev Memo := Int → Int → Option pdi

/-- The assignment `memo[r][c] = cell`; it fails on a cell that is not
allocated. -/
def Memo.write (memo : Memo) (r c : Int) (cell : pdi) : Option Memo :=
  match memo r c with
  | none => none
  | some _ => some (fun r2 c2 => if r2 = r ∧ c2 = c then some cell else memo r2 c2)

/-- The function `probability`: the memoised recursion. It returns the value
and the table it leaves, or `none` when it touches a cell that is not
allocated. -/
def probability (summons r_up : Int) (memo : Memo) : Option (ℚ × Memo) :=
  if _h : summons ≤ 0 ∨ r_up ≥ 110 then some (0.0, memo)
  else
    match memo r_up summons with
    | none => none
    | some cached =>
      if cached.1 ≥ 0.0 then some (cached.1, memo)
      else
        match probability (summons - 1) 0 memo with
        | none => none
        | some (a, memo1) =>
        match probability (summons - 1) (r_up + 1) memo1 with
        | none => none
        | some (b, memo2) =>
        match probability (summons - 10) 0 memo2 with
        | none => none
        | some (c, memo3) =>
        match probability (summons - 10) (r_up + 10) memo3 with
        | none => none
        | some (d, memo4) =>
          let single := ft_prob r_up + nft_prob r_up * a + n_prob r_up * b
          let tenfold := tfold_ft_prob r_up + tfold_nft_prob r_up * c + tfold_n_prob r_up * d
          let cell := decision summons single tenfold
          match memo4.write r_up summons cell with
          | none => none
          | some memo5 => some (cell.1, memo5)
termination_by summons.toNat
decreasing_by all_goals (simp_wf; omega)

/-- The table that `main` allocates and fills: 110 rows of 1001 cells, each
the pair `{-1.0, 0}`. -/
def mainMemo : Memo := fun r c =>
  if 0 ≤ r ∧ r < 110 ∧ 0 ≤ c ∧ c < 1001 then some (-1.0, 0) else none

/-- The call `probability(1000, 0, memo)` of `main` on the table it has just
filled. -/
def mainCall : Option (ℚ × Memo) := probability 1000 0 mainMemo

/-- The six outcome probabilities of a pity value are probabilities: the facts
about them that the recursion relies on. -/
structure Rates (r_up : Int) : Prop where
  ft_ge : 1 / 100 ≤ ft_prob r_up
  nft_nonneg : 0 ≤ nft_prob r_up
  n_nonneg : 0 ≤ n_prob r_up
  single_sum : ft_prob r_up + nft_prob r_up + n_prob r_up = 1
  tft_nonneg : 0 ≤ tfold_ft_prob r_up
  tnft_nonneg : 0 ≤ tfold_nft_prob r_up
  tn_nonneg : 0 ≤ tfold_n_prob r_up
  tenfold_sum : tfold_ft_prob r_up + tfold_nft_prob r_up + tfold_n_prob r_up = 1

/-- The cell `{-1.0, 0}` with which `main` marks a state as not computed. -/
def sentinel : pdi := (-1.0, 0)

/-- The invariant of one memo cell, row `r` and column `c`: it is the sentinel,
or it holds the value of the plain recursion for its own state (`c` summons
left at pity `r`) with tag `-1` or `1`. -/
def CellOK (r c : Int) (cell : pdi) : Prop :=
  cell = sentinel ∨ (cell.1 = value c r ∧ (cell.2 = -1 ∨ cell.2 = 1))

/-- The invariant of the memo table: the 110 x 1001 cells of `main` are
allocated and each of them satisfies `CellOK`. -/
def Valid (memo : Memo) : Prop :=
  ∀ r c : Int, 0 ≤ r → r < 110 → 0 ≤ c → c ≤ 1000 →
    ∃ cell, memo r c = some cell ∧ CellOK r c cell

/-- How a run of `probability` may change one table into another: a cell
keeps its content, or it was allocated with a negative first component and now
holds the value and the action tag of its own state. -/
def Fills (memo memo2 : Memo) : Prop :=
  ∀ r c : Int, memo2 r c = memo r c ∨
    ((∃ old, memo r c = some old ∧ old.1 < 0) ∧
      memo2 r c = some (value c r, action c r))

/-- One access to the memo table: a read (`write = false`) or an assignment
(`write = true`) of the cell `memo[row][col]`. -/
structure Access where
  write : Bool
  row : Int
  col : Int

/-- The function `probability` with a ghost log: next to the value and the
table it returns the accesses to `memo` in the order in which they happen. The
reads are the test `memo[r_up][summons].first >= 0.0` and the two
`return memo[r_up][summons].first`; the writes are the two assignments. -/
def probabilityLog (summons r_up : Int) (memo : Memo) : Option (ℚ × Memo × List Access) :=
  if _h : summons ≤ 0 ∨ r_up ≥ 110 then some (0.0, memo, [])
  else
    match memo r_up summons with
    | none => none
    | some cached =>
      if cached.1 ≥ 0.0 then
        some (cached.1, memo, [⟨false, r_up, summons⟩, ⟨false, r_up, summons⟩])
      else
        match probabilityLog (summons - 1) 0 memo with
        | none => none
        | some (a, memo1, log1) =>
        match probabilityLog (summons - 1) (r_up + 1) memo1 with
        | none => none
        | some (b, memo2, log2) =>
        match probabilityLog (summons - 10) 0 memo2 with
        | none => none
        | some (c, memo3, log3) =>
        match probabilityLog (summons - 10) (r_up + 10) memo3 with
        | none => none
        | some (d, memo4, log4) =>
          let single := ft_prob r_up + nft_prob r_up * a + n_prob r_up * b
          let tenfold := tfold_ft_prob r_up + tfold_nft_prob r_up * c + tfold_n_prob r_up * d
          let cell := decision summons single tenfold
          match memo4.write r_up summons cell with
          | none => none
          | some memo5 =>
            some (cell.1, memo5,
              ⟨false, r_up, summons⟩ :: (log1 ++ log2 ++ log3 ++ log4 ++
                (if summons < 10 ∨ single > tenfold then [⟨true, r_up, summons⟩]
                 else [⟨true, r_up, summons⟩, ⟨false, r_up, summons⟩])))
termination_by summons.toNat
decreasing_by all_goals (simp_wf; omega)

/-- The cells that a log assigns to, in order. -/
def writes : List Access → List (Int × Int)
  | [] => []
  | a :: log => if a.write then (a.row, a.col) :: writes log else writes log

/-- The function `probability` with a budget for the depth of the recursion:
the outer `none` means that the budget ran out. -/
def probabilityFuel : Nat → Int → Int → Memo → Option (Option (ℚ × Memo))
  | 0, _, _, _ => none
  | fuel + 1, summons, r_up, memo =>
    if summons ≤ 0 ∨ r_up ≥ 110 then some (some (0.0, memo))
    else
      match memo r_up summons with
      | none => some none
      | some cached =>
        if cached.1 ≥ 0.0 then some (some (cached.1, memo))
        else
          match probabilityFuel fuel (summons - 1) 0 memo with
          | none => none
          | some none => some none
          | some (some (a, memo1)) =>
          match probabilityFuel fuel (summons - 1) (r_up + 1) memo1 with
          | none => none
          | some none => some none
          | some (some (b, memo2)) =>
          match probabilityFuel fuel (summons - 10) 0 memo2 with
          | none => none
          | some none => some none
          | some (some (c, memo3)) =>
          match probabilityFuel fuel (summons - 10) (r_up + 10) memo3 with
          | none => none
          | some none => some none
          | some (some (d, memo4)) =>
            let single := ft_prob r_up + nft_prob r_up * a + n_prob r_up * b
            let tenfold := tfold_ft_prob r_up + tfold_nft_prob r_up * c
              + tfold_n_prob r_up * d
            let cell := decision summons single tenfold
            match memo4.write r_up summons cell with
            | none => some none
            | some memo5 => some (some (cell.1, memo5))

/-- The cells `ws` are exactly the cells in which the table `memo2` differs
from the table `memo`; each of them occurs once in `ws`, was not computed in
`memo` (negative first component) and is computed in `memo2`. -/
structure WritesOnce (memo memo2 : Memo) (ws : List (Int × Int)) : Prop where
  nodup : ws.Nodup
  fresh : ∀ rc ∈ ws, ∃ old, memo rc.1 rc.2 = some old ∧ old.1 < 0
  filled : ∀ rc ∈ ws, ∃ cell, memo2 rc.1 rc.2 = some cell ∧ 0 ≤ cell.1
  frame : ∀ r c : Int, (r, c) ∉ ws → memo2 r c = memo r c

/-- An access that lies inside the 110 x 1001 table that `main` allocates. -/
def Access.inTable (a : Access) : Prop :=
  0 ≤ a.row ∧ a.row < 110 ∧ 0 ≤ a.col ∧ a.col ≤ 1000

/-- A 110 x 1001 table in which the state of 11 summons at pity 100 is not
computed (`{-1.0, 0}`) and every other cell is marked computed with the content
`{1.0, 1}`. -/
def tieMemo : Memo := fun r c =>
  if 0 ≤ r ∧ r < 110 ∧ 0 ≤ c ∧ c < 1001 then
    (if r = 100 ∧ c = 11 then some (-1.0, 0) else some (1.0, 1))
  else none

/-! ## The outcome probabilities -/

theorem pity_nonneg {r_up : Int} (h0 : 0 ≤ r_up) : 0 ≤ pity r_up := by
  unfold pity
  have hk : (0 : Int) ≤ Int.tdiv r_up 10 := by
    rw [Int.tdiv_eq_ediv h0 (by decide)]; omega
  have hq : (0 : ℚ) ≤ ((Int.tdiv r_up 10 : Int) : ℚ) := by exact_mod_cast hk
  exact mul_nonneg hq (by norm_num)

theorem pity_le {r_up : Int} (h0 : 0 ≤ r_up) (h1 : r_up < 110) : pity r_up ≤ 1 / 20 := by
  unfold pity
  have hk : Int.tdiv r_up 10 ≤ (10 : Int) := by
    rw [Int.tdiv_eq_ediv h0 (by decide)]; omega
  have hq : ((Int.tdiv r_up 10 : Int) : ℚ) ≤ 10 := by exact_mod_cast hk
  norm_num
  linarith

theorem pity_of_ge_100 {r_up : Int} (h0 : 100 ≤ r_up) (h1 : r_up < 110) :
    pity r_up = 1 / 20 := by
  unfold pity
  have hk : Int.tdiv r_up 10 = (10 : Int) := by
    rw [Int.tdiv_eq_ediv (by omega) (by decide)]; omega
  rw [hk]; norm_num

theorem pity_of_lt_10 {r_up : Int} (h0 : 0 ≤ r_up) (h1 : r_up < 10) : pity r_up = 0 := by
  unfold pity
  have hk : Int.tdiv r_up 10 = (0 : Int) := by
    rw [Int.tdiv_eq_ediv h0 (by decide)]; omega
  rw [hk]; norm_num

theorem ft_prob_eq (r_up : Int) : ft_prob r_up = 1 / 100 + pity r_up / 4 := by
  unfold ft_prob BASE RATE
  norm_num
  ring

theorem nft_prob_eq (r_up : Int) : nft_prob r_up = 3 / 100 + 3 * pity r_up / 4 := by
  unfold nft_prob
  rw [ft_prob_eq]
  unfold BASE
  norm_num
  ring

theorem n_prob_eq (r_up : Int) : n_prob r_up = 24 / 25 - pity r_up := by
  unfold n_prob BASE
  norm_num
  ring

theorem tfold_ft_prob_lt (r_up : Int) (h : r_up < 100) :
    tfold_ft_prob r_up = 1 - (1 - ft_prob r_up) ^ 10 := by
  unfold tfold_ft_prob
  rw [if_neg (by omega)]
  norm_num

theorem tfold_ft_prob_ge (r_up : Int) (h : 100 ≤ r_up) :
    tfold_ft_prob r_up = 1 - 3 / 4 * (1 - ft_prob r_up) ^ 9 := by
  unfold tfold_ft_prob ft_guaranteed_prob RATE BASE
  rw [if_pos (by omega)]
  norm_num

theorem tfold_n_prob_lt (r_up : Int) (h : r_up < 100) :
    tfold_n_prob r_up = (n_prob r_up) ^ 10 := by
  unfold tfold_n_prob
  rw [if_neg (by omega)]

theorem tfold_n_prob_ge (r_up : Int) (h : 100 ≤ r_up) : tfold_n_prob r_up = 0 := by
  unfold tfold_n_prob
  rw [if_pos (by omega)]
  norm_num

theorem tfold_nft_prob_lt (r_up : Int) (h : r_up < 100) :
    tfold_nft_prob r_up = (1 - ft_prob r_up) ^ 10 - (n_prob r_up) ^ 10 := by
  unfold tfold_nft_prob
  rw [if_neg (by omega), tfold_ft_prob_lt r_up h]
  norm_num

theorem tfold_nft_prob_ge (r_up : Int) (h : 100 ≤ r_up) :
    tfold_nft_prob r_up = 3 / 4 * (1 - ft_prob r_up) ^ 9 := by
  unfold tfold_nft_prob
  rw [if_pos (by omega), tfold_ft_prob_ge r_up h]
  norm_num

theorem single_sum_eq (r_up : Int) : ft_prob r_up + nft_prob r_up + n_prob r_up = 1 := by
  rw [nft_prob_eq, n_prob_eq, ft_prob_eq]
  ring

theorem tenfold_sum_eq (r_up : Int) :
    tfold_ft_prob r_up + tfold_nft_prob r_up + tfold_n_prob r_up = 1 := by
  rcases lt_or_le r_up 100 with h | h
  · rw [tfold_ft_prob_lt r_up h, tfold_nft_prob_lt r_up h, tfold_n_prob_lt r_up h]
    ring
  · rw [tfold_ft_prob_ge r_up h, tfold_nft_prob_ge r_up h, tfold_n_prob_ge r_up h]
    ring

theorem rates {r_up : Int} (h0 : 0 ≤ r_up) (h1 : r_up < 110) : Rates r_up := by
  have hp0 := pity_nonneg h0
  have hp1 := pity_le h0 h1
  have hft : ft_prob r_up = 1 / 100 + pity r_up / 4 := ft_prob_eq r_up
  have hnft : nft_prob r_up = 3 / 100 + 3 * pity r_up / 4 := nft_prob_eq r_up
  have hn : n_prob r_up = 24 / 25 - pity r_up := n_prob_eq r_up
  have hft0 : 0 ≤ ft_prob r_up := by rw [hft]; linarith
  have hn0 : 0 ≤ n_prob r_up := by rw [hn]; linarith
  have hc0 : 0 ≤ 1 - ft_prob r_up := by rw [hft]; linarith
  have hc1 : 1 - ft_prob r_up ≤ 1 := by linarith
  have hle : n_prob r_up ≤ 1 - ft_prob r_up := by rw [hn, hft]; linarith
  have h9 : (1 - ft_prob r_up) ^ 9 ≤ 1 := pow_le_one₀ hc0 hc1
  have h10 : (1 - ft_prob r_up) ^ 10 ≤ 1 := pow_le_one₀ hc0 hc1
  have h9' : 0 ≤ (1 - ft_prob r_up) ^ 9 := pow_nonneg hc0 9
  refine ⟨by rw [hft]; linarith, by rw [hnft]; linarith, hn0, single_sum_eq r_up,
    ?_, ?_, ?_, tenfold_sum_eq r_up⟩
  · rcases lt_or_le r_up 100 with h | h
    · rw [tfold_ft_prob_lt r_up h]; linarith
    · rw [tfold_ft_prob_ge r_up h]; linarith
  · rcases lt_or_le r_up 100 with h | h
    · rw [tfold_nft_prob_lt r_up h]
      have := pow_le_pow_left₀ hn0 hle 10
      linarith
    · rw [tfold_nft_prob_ge r_up h]; linarith
  · rcases lt_or_le r_up 100 with h | h
    · rw [tfold_n_prob_lt r_up h]; exact pow_nonneg hn0 10
    · rw [tfold_n_prob_ge r_up h]

/-! ## The decision step and the plain recursion -/

theorem decision_fst_of_lt (summons : Int) (single tenfold : ℚ) (h : summons < 10) :
    (decision summons single tenfold).1 = single := by
  unfold decision
  rw [if_pos (Or.inl h)]

theorem decision_fst_of_ge (summons : Int) (single tenfold : ℚ) (h : 10 ≤ summons) :
    (decision summons single tenfold).1 = max single tenfold := by
  unfold decision
  by_cases hc : single > tenfold
  · rw [if_pos (Or.inr hc), max_eq_left (le_of_lt hc)]
  · rw [if_neg (by intro h2; rcases h2 with h2 | h2; exact absurd h2 (by omega); exact hc h2),
      max_eq_right (not_lt.mp hc)]

theorem decision_snd (summons : Int) (single tenfold : ℚ) :
    (decision summons single tenfold).2 = -1 ∨ (decision summons single tenfold).2 = 1 := by
  unfold decision
  split
  · exact Or.inl rfl
  · exact Or.inr rfl

theorem decision_ge_single (summons : Int) (a b : ℚ) : a ≤ (decision summons a b).1 := by
  rcases lt_or_le summons 10 with h | h
  · rw [decision_fst_of_lt _ _ _ h]
  · rw [decision_fst_of_ge _ _ _ h]; exact le_max_left a b

theorem decision_mono {s t : Int} (hst : s ≤ t) {a b c d : ℚ} (hac : a ≤ c) (hbd : b ≤ d) :
    (decision s a b).1 ≤ (decision t c d).1 := by
  rcases lt_or_le s 10 with h | h
  · rw [decision_fst_of_lt _ _ _ h]
    exact le_trans hac (decision_ge_single t c d)
  · rw [decision_fst_of_ge _ _ _ h, decision_fst_of_ge _ _ _ (le_trans h hst)]
    exact max_le_max hac hbd

theorem decision_bounds (summons : Int) {a b lo hi : ℚ} (ha : lo ≤ a ∧ a ≤ hi)
    (hb : lo ≤ b ∧ b ≤ hi) :
    lo ≤ (decision summons a b).1 ∧ (decision summons a b).1 ≤ hi := by
  unfold decision
  split
  · exact ha
  · exact hb

theorem value_base (summons r_up : Int) (h : summons ≤ 0 ∨ r_up ≥ 110) :
    value summons r_up = 0 := by
  rw [value, dif_pos h]
  norm_num

theorem value_step (summons r_up : Int) (h : ¬(summons ≤ 0 ∨ r_up ≥ 110)) :
    value summons r_up = (decision summons (single_success value summons r_up)
      (tenfold_success value summons r_up)).1 := by
  rw [value, dif_neg h]
  rfl

theorem value_bounds (n : Nat) : ∀ summons r_up : Int, summons ≤ n → 0 ≤ r_up →
    0 ≤ value summons r_up ∧ value summons r_up ≤ 1 := by
  induction n using Nat.strong_induction_on with
  | _ n ih =>
    intro summons r_up hs hr
    by_cases h : summons ≤ 0 ∨ r_up ≥ 110
    · rw [value_base _ _ h]; exact ⟨le_refl 0, zero_le_one⟩
    · have hs0 : 0 < summons := by omega
      have hr1 : r_up < 110 := by omega
      have R := rates hr hr1
      have hlt : (summons - 1).toNat < n := by omega
      have e1 := ih _ hlt (summons - 1) 0 (by omega) (le_refl 0)
      have e2 := ih _ hlt (summons - 1) (r_up + 1) (by omega) (by omega)
      have e3 := ih _ hlt (summons - 10) 0 (by omega) (le_refl 0)
      have e4 := ih _ hlt (summons - 10) (r_up + 10) (by omega) (by omega)
      rw [value_step _ _ h]
      apply decision_bounds
      · unfold single_success
        have k1 := mul_nonneg R.nft_nonneg e1.1
        have k2 := mul_nonneg R.n_nonneg e2.1
        have k3 := mul_le_mul_of_nonneg_left e1.2 R.nft_nonneg
        have k4 := mul_le_mul_of_nonneg_left e2.2 R.n_nonneg
        have := R.single_sum
        have := R.ft_ge
        constructor <;> linarith
      · unfold tenfold_success
        have k1 := mul_nonneg R.tnft_nonneg e3.1
        have k2 := mul_nonneg R.tn_nonneg e4.1
        have k3 := mul_le_mul_of_nonneg_left e3.2 R.tnft_nonneg
        have k4 := mul_le_mul_of_nonneg_left e4.2 R.tn_nonneg
        have := R.tenfold_sum
        have := R.tft_nonneg
        constructor <;> linarith

theorem value_nonneg (summons r_up : Int) (h : 0 ≤ r_up) : 0 ≤ value summons r_up :=
  (value_bounds summons.toNat summons r_up (by omega) h).1

theorem value_le_one (summons r_up : Int) (h : 0 ≤ r_up) : value summons r_up ≤ 1 :=
  (value_bounds summons.toNat summons r_up (by omega) h).2

/-! ## The memo table -/

theorem Fills.refl (memo : Memo) : Fills memo memo := fun _ _ => Or.inl rfl

theorem Fills.trans {m1 m2 m3 : Memo} (h12 : Fills m1 m2) (h23 : Fills m2 m3) :
    Fills m1 m3 := by
  intro r c
  rcases h23 r c with e2 | ⟨⟨old, ho, hneg⟩, e2⟩
  · rcases h12 r c with e1 | ⟨hx, e1⟩
    · exact Or.inl (by rw [e2, e1])
    · exact Or.inr ⟨hx, by rw [e2, e1]⟩
  · rcases h12 r c with e1 | ⟨hx, _⟩
    · exact Or.inr ⟨⟨old, by rw [← e1]; exact ho, hneg⟩, e2⟩
    · exact Or.inr ⟨hx, e2⟩

theorem write_eq (memo : Memo) (r c : Int) (cell old : pdi) (h : memo r c = some old) :
    memo.write r c cell
      = some (fun r2 c2 => if r2 = r ∧ c2 = c then some cell else memo r2 c2) := by
  unfold Memo.write
  rw [h]

theorem mainMemo_valid : Valid mainMemo := by
  intro r c h0 h1 h2 h3
  refine ⟨sentinel, ?_, Or.inl rfl⟩
  unfold mainMemo sentinel
  rw [if_pos ⟨h0, h1, h2, by omega⟩]

/-- The memoised function agrees with the plain recursion on every valid
table, keeps the table valid, only fills cells that were not computed, and
leaves the cell of its own state computed. Induction on a bound of `summons`. -/
theorem probability_spec (n : Nat) : ∀ (summons r_up : Int) (memo : Memo),
    summons ≤ n → summons ≤ 1000 → 0 ≤ r_up → Valid memo →
    ∃ memo2, probability summons r_up memo = some (value summons r_up, memo2)
      ∧ Valid memo2 ∧ Fills memo memo2
      ∧ (0 < summons → r_up < 110 →
          ∃ cell, memo2 r_up summons = some cell ∧ 0 ≤ cell.1) := by
  induction n using Nat.strong_induction_on with
  | _ n ih =>
    intro summons r_up memo hs hs2 hr hv
    by_cases h : summons ≤ 0 ∨ r_up ≥ 110
    · refine ⟨memo, ?_, hv, Fills.refl _, fun h1 h2 => absurd h (by omega)⟩
      rw [probability, dif_pos h, value_base _ _ h]
      norm_num
    · have hs0 : 0 < summons := by omega
      have hr1 : r_up < 110 := by omega
      obtain ⟨cached, hcached, hok⟩ := hv r_up summons hr hr1 (by omega) hs2
      by_cases hc : cached.1 ≥ 0.0
      · refine ⟨memo, ?_, hv, Fills.refl _, fun _ _ => ⟨cached, hcached, by norm_num at hc; exact hc⟩⟩
        rw [probability, dif_neg h]
        simp only [hcached]
        rw [if_pos hc]
        rcases hok with hsen | ⟨hval, _⟩
        · rw [hsen] at hc
          unfold sentinel at hc
          norm_num at hc
        · rw [hval]
      · have hlt : (summons - 1).toNat < n := by omega
        obtain ⟨memo1, e1, v1, f1, _⟩ :=
          ih _ hlt (summons - 1) 0 memo (by omega) (by omega) (le_refl 0) hv
        obtain ⟨memo2, e2, v2, f2, _⟩ :=
          ih _ hlt (summons - 1) (r_up + 1) memo1 (by omega) (by omega) (by omega) v1
        obtain ⟨memo3, e3, v3, f3, _⟩ :=
          ih _ hlt (summons - 10) 0 memo2 (by omega) (by omega) (le_refl 0) v2
        obtain ⟨memo4, e4, v4, f4, _⟩ :=
          ih _ hlt (summons - 10) (r_up + 10) memo3 (by omega) (by omega) (by omega) v3
        obtain ⟨old, hold, _⟩ := v4 r_up summons hr hr1 (by omega) hs2
        have hval : value summons r_up = (decision summons
            (single_success value summons r_up) (tenfold_success value summons r_up)).1 :=
          value_step _ _ h
        have hact : action summons r_up = (decision summons
            (single_success value summons r_up) (tenfold_success value summons r_up)).2 := rfl
        refine ⟨fun r2 c2 => if r2 = r_up ∧ c2 = summons
          then some (value summons r_up, action summons r_up) else memo4 r2 c2, ?_, ?_, ?_, ?_⟩
        · rw [probability, dif_neg h]
          simp only [hcached]
          rw [if_neg hc]
          simp only [e1, e2, e3, e4]
          rw [write_eq memo4 r_up summons _ old hold, hval, hact]
          rfl
        · intro r c h0 h1 h2 h3
          by_cases hrc : r = r_up ∧ c = summons
          · refine ⟨_, if_pos hrc, Or.inr ⟨?_, ?_⟩⟩
            · rw [hrc.1, hrc.2]
            · exact decision_snd _ _ _
          · obtain ⟨cell, hcell, hcok⟩ := v4 r c h0 h1 h2 h3
            exact ⟨cell, (if_neg hrc).trans hcell, hcok⟩
        · have f04 : Fills memo memo4 := Fills.trans (Fills.trans (Fills.trans f1 f2) f3) f4
          intro r c
          by_cases hrc : r = r_up ∧ c = summons
          · refine Or.inr ⟨⟨cached, by rw [hrc.1, hrc.2]; exact hcached, ?_⟩, ?_⟩
            · norm_num at hc; exact hc
            · rw [hrc.1, hrc.2]; exact if_pos ⟨rfl, rfl⟩
          · rcases f04 r c with e | ⟨hx, e⟩
            · exact Or.inl ((if_neg hrc).trans e)
            · exact Or.inr ⟨hx, (if_neg hrc).trans e⟩
        · intro _ _
          exact ⟨_, if_pos ⟨rfl, rfl⟩, value_nonneg _ _ hr⟩

/-! ## Shape of the value function -/

theorem value_one (r_up : Int) (h : r_up < 110) : value 1 r_up = ft_prob r_up := by
  rw [value_step 1 r_up (by omega), decision_fst_of_lt _ _ _ (by decide)]
  unfold single_success
  rw [value_base (1 - 1) 0 (Or.inl (by decide)),
    value_base (1 - 1) (r_up + 1) (Or.inl (by decide))]
  ring

/-- Below ten summons, and as long as the pity counter cannot leave its first
decade, the value is that of independent draws at the base rate. -/
theorem value_first_decade (k : Nat) : ∀ r_up : Int, 0 ≤ r_up → r_up + k ≤ 10 → k ≤ 9 →
    value k r_up = 1 - (99 / 100) ^ k := by
  induction k with
  | zero =>
    intro r_up _ _ _
    rw [value_base _ _ (Or.inl (by simp))]
    norm_num
  | succ k ih =>
    intro r_up h0 h1 h2
    have hk : ((k + 1 : Nat) : Int) - 1 = (k : Int) := by push_cast; ring
    rw [value_step _ _ (by omega), decision_fst_of_lt _ _ _ (by omega)]
    unfold single_success
    rw [hk, ih 0 (le_refl 0) (by omega) (by omega), ih (r_up + 1) (by omega) (by omega) (by omega),
      ft_prob_eq, nft_prob_eq, n_prob_eq, pity_of_lt_10 h0 (by omega)]
    ring

theorem single_success_ten_zero : single_success value 10 0 = 1 - (99 / 100) ^ 10 := by
  unfold single_success
  have e0 := value_first_decade 9 0 (le_refl 0) (by decide) (le_refl 9)
  have e1 := value_first_decade 9 (0 + 1) (by decide) (by decide) (le_refl 9)
  have h9 : (10 : Int) - 1 = ((9 : Nat) : Int) := by decide
  rw [h9, e0, e1, ft_prob_eq, nft_prob_eq, n_prob_eq, pity_of_lt_10 (le_refl 0) (by decide)]
  norm_num

theorem tenfold_success_ten_zero : tenfold_success value 10 0 = 1 - (99 / 100) ^ 10 := by
  unfold tenfold_success
  rw [value_base (10 - 10) 0 (Or.inl (by decide)),
    value_base (10 - 10) (0 + 10) (Or.inl (by decide)),
    tfold_ft_prob_lt 0 (by decide), ft_prob_eq, pity_of_lt_10 (le_refl 0) (by decide)]
  norm_num

theorem action_ten_zero : action 10 0 = 1 := by
  unfold action decision
  rw [single_success_ten_zero, tenfold_success_ten_zero]
  rw [if_neg (by intro h; rcases h with h | h; exact absurd h (by decide); exact lt_irrefl _ h)]

theorem rates_eq_of_pity_eq {p q : Int} (h : pity p = pity q) :
    ft_prob p = ft_prob q ∧ nft_prob p = nft_prob q ∧ n_prob p = n_prob q := by
  rw [ft_prob_eq, ft_prob_eq, nft_prob_eq, nft_prob_eq, n_prob_eq, n_prob_eq, h]
  exact ⟨rfl, rfl, rfl⟩

/-- Above the threshold the value does not grow with the pity counter. -/
theorem value_antitone_saturated (n : Nat) : ∀ summons p q : Int, summons ≤ n →
    100 ≤ p → p ≤ q → value summons q ≤ value summons p := by
  induction n using Nat.strong_induction_on with
  | _ n ih =>
    intro summons p q hs hp hpq
    by_cases h : summons ≤ 0 ∨ q ≥ 110
    · rw [value_base _ _ h]; exact value_nonneg _ _ (by omega)
    · have hq : ¬(summons ≤ 0 ∨ p ≥ 110) := by omega
      have hlt : (summons - 1).toNat < n := by omega
      have hpp : pity p = pity q := by
        rw [pity_of_ge_100 hp (by omega), pity_of_ge_100 (by omega) (by omega)]
      obtain ⟨eft, enft, en⟩ := rates_eq_of_pity_eq hpp
      have R : Rates p := rates (by omega) (by omega)
      have e2 := ih _ hlt (summons - 1) (p + 1) (q + 1) (by omega) (by omega) (by omega)
      rw [value_step _ _ h, value_step _ _ hq]
      apply decision_mono (le_refl _)
      · unfold single_success
        rw [← eft, ← enft, ← en]
        have := mul_le_mul_of_nonneg_left e2 R.n_nonneg
        linarith
      · unfold tenfold_success
        rw [tfold_n_prob_ge p hp, tfold_n_prob_ge q (by omega), tfold_nft_prob_ge p hp,
          tfold_nft_prob_ge q (by omega), tfold_ft_prob_ge p hp, tfold_ft_prob_ge q (by omega),
          eft]
        linarith

/-- One more summon never lowers the value. -/
theorem value_le_succ (n : Nat) : ∀ summons r_up : Int, summons ≤ n → 0 ≤ r_up →
    value summons r_up ≤ value (summons + 1) r_up := by
  induction n using Nat.strong_induction_on with
  | _ n ih =>
    intro summons r_up hs hr
    by_cases h : summons ≤ 0 ∨ r_up ≥ 110
    · rw [value_base _ _ h]; exact value_nonneg _ _ hr
    · have hq : ¬(summons + 1 ≤ 0 ∨ r_up ≥ 110) := by omega
      have hlt : (summons - 1).toNat < n := by omega
      have R := rates hr (by omega)
      have e1 := ih _ hlt (summons - 1) 0 (by omega) (le_refl 0)
      have e2 := ih _ hlt (summons - 1) (r_up + 1) (by omega) (by omega)
      have e3 := ih _ hlt (summons - 10) 0 (by omega) (le_refl 0)
      have e4 := ih _ hlt (summons - 10) (r_up + 10) (by omega) (by omega)
      have a1 : summons + 1 - 1 = summons - 1 + 1 := by ring
      have a2 : summons + 1 - 10 = summons - 10 + 1 := by ring
      rw [value_step _ _ h, value_step _ _ hq]
      apply decision_mono (by omega)
      · unfold single_success
        rw [a1]
        have k1 := mul_le_mul_of_nonneg_left e1 R.nft_nonneg
        have k2 := mul_le_mul_of_nonneg_left e2 R.n_nonneg
        linarith
      · unfold tenfold_success
        rw [a2]
        have k1 := mul_le_mul_of_nonneg_left e3 R.tnft_nonneg
        have k2 := mul_le_mul_of_nonneg_left e4 R.tn_nonneg
        linarith

theorem value_le_add (k : Nat) (summons r_up : Int) (hr : 0 ≤ r_up) :
    value summons r_up ≤ value (summons + k) r_up := by
  induction k with
  | zero => simp
  | succ k ih =>
    have e : summons + ((k + 1 : Nat) : Int) = summons + k + 1 := by push_cast; ring
    rw [e]
    exact le_trans ih (value_le_succ (summons + k).toNat _ _ (by omega) hr)

theorem value_mono_summons {s t : Int} (r_up : Int) (hr : 0 ≤ r_up) (hst : s ≤ t) :
    value s r_up ≤ value t r_up := by
  have e : t = s + ((t - s).toNat : Int) := by omega
  rw [e]
  exact value_le_add _ _ _ hr

/-! ## The memoised function on a valid table -/

theorem probability_value (summons r_up : Int) (memo : Memo) (hs : summons ≤ 1000)
    (hr : 0 ≤ r_up) (hv : Valid memo) :
    ∃ memo2, probability summons r_up memo = some (value summons r_up, memo2)
      ∧ Valid memo2 ∧ Fills memo memo2
      ∧ (0 < summons → r_up < 110 →
          ∃ cell, memo2 r_up summons = some cell ∧ 0 ≤ cell.1) :=
  probability_spec summons.toNat summons r_up memo (by omega) hs hr hv

/-- A state whose cell is not computed yet gets the value and the action tag
of the decision step. -/
theorem probability_fresh (summons r_up : Int) (memo : Memo) (hs0 : 0 < summons)
    (hs : summons ≤ 1000) (hr : 0 ≤ r_up) (hr1 : r_up < 110) (hv : Valid memo)
    (hnew : ∃ old, memo r_up summons = some old ∧ old.1 < 0) :
    ∃ memo2, probability summons r_up memo = some (value summons r_up, memo2)
      ∧ memo2 r_up summons = some (value summons r_up, action summons r_up) := by
  obtain ⟨memo2, e, _, f, hcell⟩ := probability_value summons r_up memo hs hr hv
  refine ⟨memo2, e, ?_⟩
  obtain ⟨cell, hc, hpos⟩ := hcell hs0 hr1
  obtain ⟨old, ho, hneg⟩ := hnew
  rcases f r_up summons with same | ⟨_, filled⟩
  · rw [hc, ho] at same
    have : cell = old := Option.some.inj same
    rw [this] at hpos
    exact absurd hpos (not_le.mpr hneg)
  · exact filled

theorem mainMemo_fresh (r c : Int) (h0 : 0 ≤ r) (h1 : r < 110) (h2 : 0 ≤ c) (h3 : c ≤ 1000) :
    ∃ old, mainMemo r c = some old ∧ old.1 < 0 := by
  refine ⟨(-1.0, 0), ?_, by norm_num⟩
  unfold mainMemo
  rw [if_pos ⟨h0, h1, h2, by omega⟩]

/-- A state whose cell is computed is answered from the table, whatever the
rest of the table holds. -/
theorem probability_cached (summons r_up : Int) (memo : Memo) (cell : pdi)
    (h : ¬(summons ≤ 0 ∨ r_up ≥ 110)) (hcell : memo r_up summons = some cell)
    (hpos : 0 ≤ cell.1) : probability summons r_up memo = some (cell.1, memo) := by
  rw [probability, dif_neg h]
  simp only [hcell]
  rw [if_pos (by norm_num; exact hpos)]

/-- A run of `probability` never frees a cell: what was allocated before is
allocated afterwards, on every table. -/
theorem probability_keeps_cells (n : Nat) : ∀ (summons r_up : Int) (memo memo2 : Memo) (v : ℚ),
    summons ≤ n → probability summons r_up memo = some (v, memo2) →
    ∀ (r c : Int) (x : pdi), memo r c = some x → ∃ y, memo2 r c = some y := by
  induction n using Nat.strong_induction_on with
  | _ n ih =>
    intro summons r_up memo memo2 v hs e r c x hx
    by_cases h : summons ≤ 0 ∨ r_up ≥ 110
    · rw [probability, dif_pos h] at e
      rw [← (Prod.mk.inj (Option.some.inj e)).2]
      exact ⟨x, hx⟩
    · have hlt : (summons - 1).toNat < n := by omega
      rw [probability, dif_neg h] at e
      cases hc : memo r_up summons with
      | none => simp only [hc] at e; exact absurd e (by simp)
      | some cached =>
        simp only [hc] at e
        by_cases hpos : cached.1 ≥ 0.0
        · rw [if_pos hpos] at e
          rw [← (Prod.mk.inj (Option.some.inj e)).2]
          exact ⟨x, hx⟩
        · rw [if_neg hpos] at e
          cases h1 : probability (summons - 1) 0 memo with
          | none => simp only [h1] at e; exact absurd e (by simp)
          | some x1 =>
            obtain ⟨a, m1⟩ := x1
            simp only [h1] at e
            cases h2 : probability (summons - 1) (r_up + 1) m1 with
            | none => simp only [h2] at e; exact absurd e (by simp)
            | some x2 =>
              obtain ⟨b, m2⟩ := x2
              simp only [h2] at e
              cases h3 : probability (summons - 10) 0 m2 with
              | none => simp only [h3] at e; exact absurd e (by simp)
              | some x3 =>
                obtain ⟨c3, m3⟩ := x3
                simp only [h3] at e
                cases h4 : probability (summons - 10) (r_up + 10) m3 with
                | none => simp only [h4] at e; exact absurd e (by simp)
                | some x4 =>
                  obtain ⟨d, m4⟩ := x4
                  simp only [h4] at e
                  obtain ⟨y1, hy1⟩ := ih _ hlt _ _ _ _ _ (by omega) h1 r c x hx
                  obtain ⟨y2, hy2⟩ := ih _ hlt _ _ _ _ _ (by omega) h2 r c y1 hy1
                  obtain ⟨y3, hy3⟩ := ih _ hlt _ _ _ _ _ (by omega) h3 r c y2 hy2
                  obtain ⟨y4, hy4⟩ := ih _ hlt _ _ _ _ _ (by omega) h4 r c y3 hy3
                  cases h5 : m4 r_up summons with
                  | none =>
                    unfold Memo.write at e
                    simp only [h5] at e
                    exact absurd e (by simp)
                  | some old =>
                    rw [write_eq m4 r_up summons _ old h5] at e
                    rw [← (Prod.mk.inj (Option.some.inj e)).2]
                    by_cases hrc : r = r_up ∧ c = summons
                    · exact ⟨_, if_pos hrc⟩
                    · exact ⟨y4, (if_neg hrc).trans hy4⟩

/-- The last step of `probability` on any table: once the four recursive calls
have returned, the cell of the state receives the result of the decision step
on the two action values, and its first component is returned. -/
theorem probability_step (summons r_up : Int) (memo m1 m2 m3 m4 : Memo) (cached : pdi)
    (a b c d : ℚ) (h : ¬(summons ≤ 0 ∨ r_up ≥ 110))
    (hcell : memo r_up summons = some cached) (hneg : cached.1 < 0)
    (e1 : probability (summons - 1) 0 memo = some (a, m1))
    (e2 : probability (summons - 1) (r_up + 1) m1 = some (b, m2))
    (e3 : probability (summons - 10) 0 m2 = some (c, m3))
    (e4 : probability (summons - 10) (r_up + 10) m3 = some (d, m4)) :
    ∃ memo5, probability summons r_up memo
        = some ((decision summons (ft_prob r_up + nft_prob r_up * a + n_prob r_up * b)
            (tfold_ft_prob r_up + tfold_nft_prob r_up * c + tfold_n_prob r_up * d)).1, memo5)
      ∧ memo5 r_up summons
        = some (decision summons (ft_prob r_up + nft_prob r_up * a + n_prob r_up * b)
            (tfold_ft_prob r_up + tfold_nft_prob r_up * c + tfold_n_prob r_up * d)) := by
  obtain ⟨y1, hy1⟩ := probability_keeps_cells _ _ _ _ _ _ (Int.self_le_toNat _) e1 _ _ _ hcell
  obtain ⟨y2, hy2⟩ := probability_keeps_cells _ _ _ _ _ _ (Int.self_le_toNat _) e2 _ _ _ hy1
  obtain ⟨y3, hy3⟩ := probability_keeps_cells _ _ _ _ _ _ (Int.self_le_toNat _) e3 _ _ _ hy2
  obtain ⟨y4, hy4⟩ := probability_keeps_cells _ _ _ _ _ _ (Int.self_le_toNat _) e4 _ _ _ hy3
  refine ⟨fun r2 c2 => if r2 = r_up ∧ c2 = summons
    then some (decision summons (ft_prob r_up + nft_prob r_up * a + n_prob r_up * b)
      (tfold_ft_prob r_up + tfold_nft_prob r_up * c + tfold_n_prob r_up * d))
    else m4 r2 c2, ?_, if_pos ⟨rfl, rfl⟩⟩
  rw [probability, dif_neg h]
  simp only [hcell]
  rw [if_neg (by norm_num; exact hneg)]
  simp only [e1, e2, e3, e4]
  rw [write_eq m4 r_up summons _ y4 hy4]

theorem decision_tie (summons : Int) (x : ℚ) (h : 10 ≤ summons) :
    decision summons x x = (x, 1) := by
  unfold decision
  rw [if_neg (by
    intro hc
    rcases hc with hc | hc
    · exact absurd hc (by omega)
    · exact lt_irrefl _ hc)]

theorem tieMemo_cell (r c : Int) (h0 : 0 ≤ r) (h1 : r < 110) (h2 : 0 ≤ c) (h3 : c < 1001)
    (hne : ¬(r = 100 ∧ c = 11)) : tieMemo r c = some (1, 1) := by
  unfold tieMemo
  rw [if_pos ⟨h0, h1, h2, h3⟩, if_neg hne]
  norm_num

/-- The cell of the state (11, 100) of `tieMemo` and the results of its four
recursive calls. -/
theorem tieMemo_calls :
    tieMemo 100 11 = some (-1, 0)
    ∧ probability (11 - 1) 0 tieMemo = some (1, tieMemo)
    ∧ probability (11 - 1) (100 + 1) tieMemo = some (1, tieMemo)
    ∧ probability (11 - 10) 0 tieMemo = some (1, tieMemo)
    ∧ probability (11 - 10) (100 + 10) tieMemo = some (0, tieMemo) := by
  refine ⟨?_, ?_, ?_, ?_, ?_⟩
  · unfold tieMemo
    rw [if_pos (by decide), if_pos (by decide)]
    norm_num
  · exact probability_cached (11 - 1) 0 tieMemo (1, 1) (by decide)
      (tieMemo_cell 0 (11 - 1) (by decide) (by decide) (by decide) (by decide) (by decide))
      (by norm_num)
  · exact probability_cached (11 - 1) (100 + 1) tieMemo (1, 1) (by decide)
      (tieMemo_cell (100 + 1) (11 - 1) (by decide) (by decide) (by decide) (by decide)
        (by decide)) (by norm_num)
  · exact probability_cached (11 - 10) 0 tieMemo (1, 1) (by decide)
      (tieMemo_cell 0 (11 - 10) (by decide) (by decide) (by decide) (by decide) (by decide))
      (by norm_num)
  · rw [probability, dif_pos (Or.inr (by decide))]
    norm_num

/-- With the value 1 for every recursive call that reads the table, both action
values at pity 100 are 1. -/
theorem tie_values :
    ft_prob 100 + nft_prob 100 * 1 + n_prob 100 * 1 = 1
    ∧ tfold_ft_prob 100 + tfold_nft_prob 100 * 1 + tfold_n_prob 100 * 0 = 1 := by
  constructor
  · have := single_sum_eq 100
    linarith
  · have := tenfold_sum_eq 100
    rw [tfold_n_prob_ge 100 (le_refl 100)] at this ⊢
    linarith

/-! ## The claims -/

/-- C1: for `summons >= 10` and `0 <= r_up < 110` the value of the state is the
maximum of the single-action value and the bulk-action value, both for the
plain recursion and for `probability` run on any valid table (which needs
`summons <= 1000` to stay inside the table). -/
theorem C1_value_is_max (summons r_up : Int) (hs : 10 ≤ summons) (h0 : 0 ≤ r_up)
    (h1 : r_up < 110) :
    value summons r_up
        = max (ft_prob r_up + nft_prob r_up * value (summons - 1) 0
                + n_prob r_up * value (summons - 1) (r_up + 1))
              (tfold_ft_prob r_up + tfold_nft_prob r_up * value (summons - 10) 0
                + tfold_n_prob r_up * value (summons - 10) (r_up + 10))
    ∧ ∀ memo : Memo, Valid memo → summons ≤ 1000 →
        ∃ memo2, probability summons r_up memo
          = some (max (ft_prob r_up + nft_prob r_up * value (summons - 1) 0
                        + n_prob r_up * value (summons - 1) (r_up + 1))
                      (tfold_ft_prob r_up + tfold_nft_prob r_up * value (summons - 10) 0
                        + tfold_n_prob r_up * value (summons - 10) (r_up + 10)), memo2) := by
  have hv : value summons r_up
        = max (ft_prob r_up + nft_prob r_up * value (summons - 1) 0
                + n_prob r_up * value (summons - 1) (r_up + 1))
              (tfold_ft_prob r_up + tfold_nft_prob r_up * value (summons - 10) 0
                + tfold_n_prob r_up * value (summons - 10) (r_up + 10)) := by
    rw [value_step _ _ (by omega), decision_fst_of_ge _ _ _ hs]
    rfl
  refine ⟨hv, fun memo hm hs2 => ?_⟩
  obtain ⟨memo2, e, _⟩ := probability_value summons r_up memo hs2 h0 hm
  exact ⟨memo2, by rw [← hv]; exact e⟩

theorem C1_value_is_max_witness :
    (10 : Int) ≤ 10 ∧ (0 : Int) ≤ 0 ∧ (0 : Int) < 110
    ∧ value 10 0
        = max (ft_prob 0 + nft_prob 0 * value (10 - 1) 0 + n_prob 0 * value (10 - 1) (0 + 1))
              (tfold_ft_prob 0 + tfold_nft_prob 0 * value (10 - 10) 0
                + tfold_n_prob 0 * value (10 - 10) (0 + 10))
    ∧ ∃ memo2, probability 10 0 mainMemo
        = some (max (ft_prob 0 + nft_prob 0 * value (10 - 1) 0
                      + n_prob 0 * value (10 - 1) (0 + 1))
                    (tfold_ft_prob 0 + tfold_nft_prob 0 * value (10 - 10) 0
                      + tfold_n_prob 0 * value (10 - 10) (0 + 10)), memo2) :=
  ⟨by decide, by decide, by decide,
    (C1_value_is_max 10 0 (by decide) (by decide) (by decide)).1,
    (C1_value_is_max 10 0 (by decide) (by decide) (by decide)).2 mainMemo mainMemo_valid
      (by decide)⟩

/-- C2, refuted as stated: on the table `tieMemo` the call for 11 summons at
pity 100 finds its own cell not computed, gets the value 1 from the table for
each of `probability 10 0`, `probability 10 101` and `probability 1 0`, and 0
from `probability 1 110`. Both action values are then 1,
`0.0225 + 0.0675 * 1 + 0.91 * 1` for the single summon and
`tfold_ft_prob 100 + (1 - tfold_ft_prob 100) * 1 + 0 * 0` for the tenfold (both
sums are exactly 1.0 in binary64 arithmetic as well), and on this tie the state
is tagged `1` (tenfold), not `-1`. -/
theorem C2_tie_counterexample :
    tieMemo 100 11 = some (-1, 0)
    ∧ probability 10 0 tieMemo = some (1, tieMemo)
    ∧ probability 10 101 tieMemo = some (1, tieMemo)
    ∧ probability 1 0 tieMemo = some (1, tieMemo)
    ∧ probability 1 110 tieMemo = some (0, tieMemo)
    ∧ ft_prob 100 + nft_prob 100 * 1 + n_prob 100 * 1 = 1
    ∧ tfold_ft_prob 100 + tfold_nft_prob 100 * 1 + tfold_n_prob 100 * 0 = 1
    ∧ decision 11 1 1 = (1, 1)
    ∧ ∃ memo2, probability 11 100 tieMemo = some (1, memo2)
        ∧ memo2 100 11 = some (1, 1) := by
  obtain ⟨h0, e1, e2, e3, e4⟩ := tieMemo_calls
  obtain ⟨hs, ht⟩ := tie_values
  have hd : decision 11 1 1 = (1, 1) := decision_tie 11 1 (by decide)
  refine ⟨h0, e1, e2, e3, e4, hs, ht, hd, ?_⟩
  obtain ⟨memo5, e, hcell⟩ := probability_step 11 100 tieMemo tieMemo tieMemo tieMemo tieMemo
    (-1, 0) 1 1 1 0 (by decide) h0 (by norm_num) e1 e2 e3 e4
  rw [hs, ht, hd] at e hcell
  exact ⟨memo5, e, hcell⟩

/-- C2, amended: for `summons >= 10` the decision step tags a state `-1`
(single) exactly when `single_success > tenfold_success`, and `1` (tenfold)
exactly when `tenfold_success >= single_success`, so a tie is tagged `1`, and
the value it keeps is the maximum of the two. On every table, once the four
recursive calls of a state that is not computed have returned, `probability`
stores the maximum of the two action values with that tag; on a valid table
the two action values are those of the plain recursion. -/
theorem C2_tenfold_unless_single_better (summons r_up : Int) (hs : 10 ≤ summons)
    (h1 : r_up < 110) :
    (∀ single tenfold : ℚ,
        ((decision summons single tenfold).2 = -1 ↔ single > tenfold)
        ∧ ((decision summons single tenfold).2 = 1 ↔ tenfold ≥ single)
        ∧ (single = tenfold → (decision summons single tenfold).2 = 1)
        ∧ (decision summons single tenfold).1 = max single tenfold)
    ∧ (∀ (memo m1 m2 m3 m4 : Memo) (cached : pdi) (a b c d : ℚ),
        memo r_up summons = some cached → cached.1 < 0 →
        probability (summons - 1) 0 memo = some (a, m1) →
        probability (summons - 1) (r_up + 1) m1 = some (b, m2) →
        probability (summons - 10) 0 m2 = some (c, m3) →
        probability (summons - 10) (r_up + 10) m3 = some (d, m4) →
        ∃ tag memo5,
          probability summons r_up memo
            = some (max (ft_prob r_up + nft_prob r_up * a + n_prob r_up * b)
                (tfold_ft_prob r_up + tfold_nft_prob r_up * c + tfold_n_prob r_up * d), memo5)
          ∧ memo5 r_up summons
            = some (max (ft_prob r_up + nft_prob r_up * a + n_prob r_up * b)
                (tfold_ft_prob r_up + tfold_nft_prob r_up * c + tfold_n_prob r_up * d), tag)
          ∧ (tag = -1 ↔ ft_prob r_up + nft_prob r_up * a + n_prob r_up * b
                > tfold_ft_prob r_up + tfold_nft_prob r_up * c + tfold_n_prob r_up * d)
          ∧ (tag = 1 ↔ tfold_ft_prob r_up + tfold_nft_prob r_up * c + tfold_n_prob r_up * d
                ≥ ft_prob r_up + nft_prob r_up * a + n_prob r_up * b))
    ∧ (∀ memo : Memo, Valid memo → summons ≤ 1000 → 0 ≤ r_up →
        (∃ old, memo r_up summons = some old ∧ old.1 < 0) →
        ∃ tag memo2,
          probability summons r_up memo
            = some (max (single_success value summons r_up)
                (tenfold_success value summons r_up), memo2)
          ∧ memo2 r_up summons
            = some (max (single_success value summons r_up)
                (tenfold_success value summons r_up), tag)
          ∧ (tag = -1 ↔
              single_success value summons r_up > tenfold_success value summons r_up)
          ∧ (tag = 1 ↔
              tenfold_success value summons r_up ≥ single_success value summons r_up)) := by
  have hdec : ∀ single tenfold : ℚ,
      ((decision summons single tenfold).2 = -1 ↔ single > tenfold)
      ∧ ((decision summons single tenfold).2 = 1 ↔ tenfold ≥ single) := by
    intro single tenfold
    unfold decision
    by_cases hc : single > tenfold
    · rw [if_pos (Or.inr hc)]
      exact ⟨⟨fun _ => hc, fun _ => rfl⟩,
        ⟨fun h => absurd (show (-1 : Int) = 1 from h) (by decide),
          fun h => absurd hc (not_lt.mpr h)⟩⟩
    · rw [if_neg (by intro h; rcases h with h | h; exact absurd h (by omega); exact hc h)]
      exact ⟨⟨fun h => absurd (show (1 : Int) = -1 from h) (by decide), fun h => absurd h hc⟩,
        ⟨fun _ => not_lt.mp hc, fun _ => rfl⟩⟩
  refine ⟨fun single tenfold => ⟨(hdec single tenfold).1, (hdec single tenfold).2,
    fun e => (hdec single tenfold).2.mpr (le_of_eq e), decision_fst_of_ge _ _ _ hs⟩, ?_, ?_⟩
  · intro memo m1 m2 m3 m4 cached a b c d hcell hneg e1 e2 e3 e4
    obtain ⟨memo5, e, hc5⟩ := probability_step summons r_up memo m1 m2 m3 m4 cached a b c d
      (by omega) hcell hneg e1 e2 e3 e4
    rw [decision_fst_of_ge _ _ _ hs] at e
    refine ⟨_, memo5, e, ?_, (hdec _ _).1, (hdec _ _).2⟩
    rw [hc5, ← decision_fst_of_ge _ _ _ hs]
  · intro memo hv hs2 h0 hnew
    obtain ⟨memo2, e, hcell⟩ := probability_fresh summons r_up memo (by omega) hs2 h0 h1 hv hnew
    have hval : value summons r_up = max (single_success value summons r_up)
        (tenfold_success value summons r_up) := by
      rw [value_step _ _ (by omega), decision_fst_of_ge _ _ _ hs]
    exact ⟨action summons r_up, memo2, by rw [← hval]; exact e, by rw [← hval]; exact hcell,
      (hdec _ _).1, (hdec _ _).2⟩

theorem C2_tenfold_unless_single_better_witness :
    (10 : Int) ≤ 11 ∧ (100 : Int) < 110
    ∧ (∃ tag memo5,
        probability 11 100 tieMemo
          = some (max (ft_prob 100 + nft_prob 100 * 1 + n_prob 100 * 1)
              (tfold_ft_prob 100 + tfold_nft_prob 100 * 1 + tfold_n_prob 100 * 0), memo5)
        ∧ memo5 100 11
          = some (max (ft_prob 100 + nft_prob 100 * 1 + n_prob 100 * 1)
              (tfold_ft_prob 100 + tfold_nft_prob 100 * 1 + tfold_n_prob 100 * 0), tag)
        ∧ (tag = -1 ↔ ft_prob 100 + nft_prob 100 * 1 + n_prob 100 * 1
              > tfold_ft_prob 100 + tfold_nft_prob 100 * 1 + tfold_n_prob 100 * 0)
        ∧ (tag = 1 ↔ tfold_ft_prob 100 + tfold_nft_prob 100 * 1 + tfold_n_prob 100 * 0
              ≥ ft_prob 100 + nft_prob 100 * 1 + n_prob 100 * 1))
    ∧ (∃ tag memo2,
        probability 11 100 mainMemo
          = some (max (single_success value 11 100) (tenfold_success value 11 100), memo2)
        ∧ memo2 100 11
          = some (max (single_success value 11 100) (tenfold_success value 11 100), tag)
        ∧ (tag = -1 ↔ single_success value 11 100 > tenfold_success value 11 100)
        ∧ (tag = 1 ↔ tenfold_success value 11 100 ≥ single_success value 11 100)) :=
  ⟨by decide, by decide,
    (C2_tenfold_unless_single_better 11 100 (by decide) (by decide)).2.1
      tieMemo tieMemo tieMemo tieMemo tieMemo (-1, 0) 1 1 1 0
      tieMemo_calls.1 (by norm_num) tieMemo_calls.2.1 tieMemo_calls.2.2.1
      tieMemo_calls.2.2.2.1 tieMemo_calls.2.2.2.2,
    (C2_tenfold_unless_single_better 11 100 (by decide) (by decide)).2.2
      mainMemo mainMemo_valid (by decide) (by decide)
      (mainMemo_fresh 100 11 (by decide) (by decide) (by decide) (by decide))⟩

/-- C3: for `1 <= summons <= 9` and `0 <= r_up < 110` the value is exactly the
single-action value, the decision step always tags the state `-1`, and
`probability` on a valid table returns that value and stores it with tag `-1`
when the state was not computed yet; at `summons = 10` the decision step does
select the tenfold (whenever single is not strictly better, as at pity 0). -/
theorem C3_single_only_below_ten (summons r_up : Int) (hs1 : 1 ≤ summons) (hs9 : summons ≤ 9)
    (h0 : 0 ≤ r_up) (h1 : r_up < 110) :
    value summons r_up = ft_prob r_up + nft_prob r_up * value (summons - 1) 0
        + n_prob r_up * value (summons - 1) (r_up + 1)
    ∧ (∀ single tenfold : ℚ, decision summons single tenfold = (single, -1))
    ∧ (∀ memo : Memo, Valid memo →
        ∃ memo2, probability summons r_up memo
            = some (ft_prob r_up + nft_prob r_up * value (summons - 1) 0
                + n_prob r_up * value (summons - 1) (r_up + 1), memo2)
          ∧ ((∃ old, memo r_up summons = some old ∧ old.1 < 0) →
              memo2 r_up summons
                = some (ft_prob r_up + nft_prob r_up * value (summons - 1) 0
                    + n_prob r_up * value (summons - 1) (r_up + 1), -1)))
    ∧ (∀ single tenfold : ℚ, single ≤ tenfold → decision 10 single tenfold = (tenfold, 1))
    ∧ action 10 0 = 1 := by
  have hdec : ∀ single tenfold : ℚ, decision summons single tenfold = (single, -1) := by
    intro single tenfold
    unfold decision
    rw [if_pos (Or.inl (by omega))]
  have hval : value summons r_up = ft_prob r_up + nft_prob r_up * value (summons - 1) 0
      + n_prob r_up * value (summons - 1) (r_up + 1) := by
    rw [value_step _ _ (by omega), hdec]
    rfl
  have hact : action summons r_up = -1 := by
    unfold action
    rw [hdec]
  refine ⟨hval, hdec, fun memo hm => ?_, fun single tenfold hle => ?_, action_ten_zero⟩
  · obtain ⟨memo2, e, _⟩ := probability_value summons r_up memo (by omega) h0 hm
    refine ⟨memo2, by rw [← hval]; exact e, fun hnew => ?_⟩
    obtain ⟨memo3, e3, hcell⟩ :=
      probability_fresh summons r_up memo (by omega) (by omega) h0 h1 hm hnew
    rw [e] at e3
    have hm23 : memo2 = memo3 := (Prod.mk.inj (Option.some.inj e3)).2
    rw [hm23, hcell, hact, ← hval]
  · unfold decision
    rw [if_neg (by
      intro h
      rcases h with h | h
      · exact absurd h (by decide)
      · exact absurd h (not_lt.mpr hle))]

theorem C3_single_only_below_ten_witness :
    (1 : Int) ≤ 9 ∧ (9 : Int) ≤ 9 ∧ (0 : Int) ≤ 109 ∧ (109 : Int) < 110
    ∧ (value 9 109 = ft_prob 109 + nft_prob 109 * value (9 - 1) 0
        + n_prob 109 * value (9 - 1) (109 + 1)
      ∧ (∀ single tenfold : ℚ, decision 9 single tenfold = (single, -1))
      ∧ (∀ memo : Memo, Valid memo →
        ∃ memo2, probability 9 109 memo
            = some (ft_prob 109 + nft_prob 109 * value (9 - 1) 0
                + n_prob 109 * value (9 - 1) (109 + 1), memo2)
          ∧ ((∃ old, memo 109 9 = some old ∧ old.1 < 0) →
              memo2 109 9
                = some (ft_prob 109 + nft_prob 109 * value (9 - 1) 0
                    + n_prob 109 * value (9 - 1) (109 + 1), -1)))
      ∧ (∀ single tenfold : ℚ, single ≤ tenfold → decision 10 single tenfold = (tenfold, 1))
      ∧ action 10 0 = 1) :=
  ⟨by decide, by decide, by decide, by decide,
    C3_single_only_below_ten 9 109 (by decide) (by decide) (by decide) (by decide)⟩

/-- C4: at pity 100 the tenfold no-5* probability `tfold_n_prob 100` is 0, but
the single-summon no-5* probability `n_prob 100` is 91/100, not 0: `n_prob` has
no branch for the guaranteed summon. -/
theorem C4_n_prob_at_threshold : n_prob 100 = 91 / 100 ∧ tfold_n_prob 100 = 0 := by
  refine ⟨?_, tfold_n_prob_ge 100 (le_refl 100)⟩
  rw [n_prob_eq, pity_of_ge_100 (le_refl 100) (by decide)]
  norm_num

/-- C5, refuted as stated: with one summon left the value at pity 10 is 9/800,
above the value 1/100 at pity 0; `probability` returns these two numbers on the
fresh table of `main`. -/
theorem C5_pity_counterexample :
    (0 : Int) ≤ 10 ∧ value 1 0 = 1 / 100 ∧ value 1 10 = 9 / 800 ∧ ¬ (value 1 10 ≤ value 1 0)
    ∧ (∃ memo2, probability 1 0 mainMemo = some (1 / 100, memo2))
    ∧ (∃ memo2, probability 1 10 mainMemo = some (9 / 800, memo2)) := by
  have v0 : value 1 0 = 1 / 100 := by
    rw [value_one 0 (by decide), ft_prob_eq, pity_of_lt_10 (le_refl 0) (by decide)]
    norm_num
  have v10 : value 1 10 = 9 / 800 := by
    have hp : pity 10 = 1 / 200 := by
      unfold pity
      have hk : Int.tdiv 10 10 = (1 : Int) := by decide
      rw [hk]; norm_num
    rw [value_one 10 (by decide), ft_prob_eq, hp]
    norm_num
  refine ⟨by decide, v0, v10, by rw [v0, v10]; norm_num, ?_, ?_⟩
  · obtain ⟨memo2, e, _⟩ := probability_value 1 0 mainMemo (by decide) (by decide) mainMemo_valid
    exact ⟨memo2, by rw [← v0]; exact e⟩
  · obtain ⟨memo2, e, _⟩ := probability_value 1 10 mainMemo (by decide) (by decide) mainMemo_valid
    exact ⟨memo2, by rw [← v10]; exact e⟩

/-- C5, amended: from the threshold on, that is for all pity values
`100 <= p <= q`, and for every fixed `summons`, `value summons q <= value summons p`;
the same holds for the numbers `probability` returns on valid tables. -/
theorem C5_value_antitone_from_threshold (summons p q : Int) (hp : 100 ≤ p) (hpq : p ≤ q) :
    value summons q ≤ value summons p
    ∧ ∀ memo memo' : Memo, Valid memo → Valid memo' → summons ≤ 1000 →
        ∃ vq vp memo2 memo2', probability summons q memo = some (vq, memo2)
          ∧ probability summons p memo' = some (vp, memo2') ∧ vq ≤ vp := by
  have hle : value summons q ≤ value summons p :=
    value_antitone_saturated summons.toNat summons p q (by omega) hp hpq
  refine ⟨hle, fun memo memo' hm hm' hs => ?_⟩
  obtain ⟨memo2, e, _⟩ := probability_value summons q memo hs (by omega) hm
  obtain ⟨memo2', e', _⟩ := probability_value summons p memo' hs (by omega) hm'
  exact ⟨_, _, memo2, memo2', e, e', hle⟩

theorem C5_value_antitone_from_threshold_witness :
    (100 : Int) ≤ 100 ∧ (100 : Int) ≤ 109
    ∧ (value 20 109 ≤ value 20 100
      ∧ ∀ memo memo' : Memo, Valid memo → Valid memo' → (20 : Int) ≤ 1000 →
        ∃ vq vp memo2 memo2', probability 20 109 memo = some (vq, memo2)
          ∧ probability 20 100 memo' = some (vp, memo2') ∧ vq ≤ vp) :=
  ⟨by decide, by decide, C5_value_antitone_from_threshold 20 100 109 (by decide) (by decide)⟩

/-- C6: for every pity `r_up >= 0` and all `s <= t`, `value s r_up <= value t r_up`;
the same holds for the numbers `probability` returns on valid tables (with
`t <= 1000`, the width of the table). -/
theorem C6_value_mono_in_summons (s t r_up : Int) (hr : 0 ≤ r_up) (hst : s ≤ t) :
    value s r_up ≤ value t r_up
    ∧ ∀ memo memo' : Memo, Valid memo → Valid memo' → t ≤ 1000 →
        ∃ vs vt memo2 memo2', probability s r_up memo = some (vs, memo2)
          ∧ probability t r_up memo' = some (vt, memo2') ∧ vs ≤ vt := by
  have hle : value s r_up ≤ value t r_up := value_mono_summons r_up hr hst
  refine ⟨hle, fun memo memo' hm hm' ht => ?_⟩
  obtain ⟨memo2, e, _⟩ := probability_value s r_up memo (by omega) hr hm
  obtain ⟨memo2', e', _⟩ := probability_value t r_up memo' ht hr hm'
  exact ⟨_, _, memo2, memo2', e, e', hle⟩

theorem C6_value_mono_in_summons_witness :
    (0 : Int) ≤ 0 ∧ (9 : Int) ≤ 10
    ∧ (value 9 0 ≤ value 10 0
      ∧ ∀ memo memo' : Memo, Valid memo → Valid memo' → (10 : Int) ≤ 1000 →
        ∃ vs vt memo2 memo2', probability 9 0 memo = some (vs, memo2)
          ∧ probability 10 0 memo' = some (vt, memo2') ∧ vs ≤ vt) :=
  ⟨by decide, by decide, C6_value_mono_in_summons 9 10 0 (by decide) (by decide)⟩

/-- C7: the three single-summon probabilities add up to exactly one, for every
pity value (in particular for `0 <= r_up < 100`). -/
theorem C7_single_probabilities_sum (r_up : Int) :
    ft_prob r_up + nft_prob r_up + n_prob r_up = 1 :=
  single_sum_eq r_up

/-- C8: the three tenfold probabilities add up to exactly one, for every pity
value (in particular for `0 <= r_up < 110`, on both sides of the threshold 100). -/
theorem C8_tenfold_probabilities_sum (r_up : Int) :
    tfold_ft_prob r_up + tfold_nft_prob r_up + tfold_n_prob r_up = 1 :=
  tenfold_sum_eq r_up

/-- C9: for every `summons` and every `r_up >= 0` (in particular for
`0 <= r_up < 110`) the value lies in `[0, 1]`; `probability` on a valid table
(with `summons <= 1000`) returns a number in `[0, 1]`, and every computed cell
(first component `>= 0`) of the table it leaves holds a number in `[0, 1]`. -/
theorem C9_value_in_unit_interval (summons r_up : Int) (h0 : 0 ≤ r_up) :
    (0 ≤ value summons r_up ∧ value summons r_up ≤ 1)
    ∧ ∀ memo : Memo, Valid memo → summons ≤ 1000 →
        ∃ v memo2, probability summons r_up memo = some (v, memo2) ∧ 0 ≤ v ∧ v ≤ 1
          ∧ ∀ (r c : Int) (cell : pdi), 0 ≤ r → r < 110 → 0 ≤ c → c ≤ 1000 →
              memo2 r c = some cell → 0 ≤ cell.1 → cell.1 ≤ 1 := by
  refine ⟨⟨value_nonneg _ _ h0, value_le_one _ _ h0⟩, fun memo hm hs => ?_⟩
  obtain ⟨memo2, e, hm2, _⟩ := probability_value summons r_up memo hs h0 hm
  refine ⟨_, memo2, e, value_nonneg _ _ h0, value_le_one _ _ h0, ?_⟩
  intro r c cell hr0 hr1 hc0 hc1 hcell hpos
  obtain ⟨cell2, hcell2, hok⟩ := hm2 r c hr0 hr1 hc0 hc1
  rw [hcell] at hcell2
  rw [← Option.some.inj hcell2] at hok
  rcases hok with hsen | ⟨hval, _⟩
  · rw [hsen] at hpos
    unfold sentinel at hpos
    norm_num at hpos
  · rw [hval]; exact value_le_one _ _ hr0

theorem C9_value_in_unit_interval_witness :
    (0 : Int) ≤ 0
    ∧ ((0 ≤ value 1000 0 ∧ value 1000 0 ≤ 1)
      ∧ ∀ memo : Memo, Valid memo → (1000 : Int) ≤ 1000 →
        ∃ v memo2, probability 1000 0 memo = some (v, memo2) ∧ 0 ≤ v ∧ v ≤ 1
          ∧ ∀ (r c : Int) (cell : pdi), 0 ≤ r → r < 110 → 0 ≤ c → c ≤ 1000 →
              memo2 r c = some cell → 0 ≤ cell.1 → cell.1 ≤ 1) :=
  ⟨by decide, C9_value_in_unit_interval 1000 0 (by decide)⟩

/-- C10: memoisation is transparent. On every table that satisfies the
invariant `Valid` (each cell of the 110 x 1001 table is the sentinel or holds
the value of the plain recursion for its own state with tag `-1` or `1`), and
for `summons <= 1000` (in particular `0 <= summons <= 1000`) and `0 <= r_up`,
`probability` returns exactly the value of the plain recursion and leaves a
table that satisfies `Valid` again; a table whose every cell is the sentinel
satisfies `Valid`. -/
theorem C10_memoisation_transparent (summons r_up : Int) (memo : Memo)
    (hs : summons ≤ 1000) (hr : 0 ≤ r_up) (hv : Valid memo) :
    (∃ memo2, probability summons r_up memo = some (value summons r_up, memo2)
      ∧ Valid memo2)
    ∧ ∀ fresh : Memo,
        (∀ r c : Int, 0 ≤ r → r < 110 → 0 ≤ c → c ≤ 1000 → fresh r c = some sentinel) →
        Valid fresh := by
  obtain ⟨memo2, e, hv2, _⟩ := probability_value summons r_up memo hs hr hv
  exact ⟨⟨memo2, e, hv2⟩, fun fresh hf r c h0 h1 h2 h3 =>
    ⟨sentinel, hf r c h0 h1 h2 h3, Or.inl rfl⟩⟩

theorem C10_memoisation_transparent_witness :
    (1000 : Int) ≤ 1000 ∧ (0 : Int) ≤ 0 ∧ Valid mainMemo
    ∧ ((∃ memo2, probability 1000 0 mainMemo = some (value 1000 0, memo2) ∧ Valid memo2)
      ∧ ∀ fresh : Memo,
        (∀ r c : Int, 0 ≤ r → r < 110 → 0 ≤ c → c ≤ 1000 → fresh r c = some sentinel) →
        Valid fresh) :=
  ⟨by decide, by decide, mainMemo_valid,
    C10_memoisation_transparent 1000 0 mainMemo (by decide) (by decide) mainMemo_valid⟩

/-! ## The logged and the fuelled function -/

theorem probabilityLog_base (summons r_up : Int) (memo : Memo)
    (h : summons ≤ 0 ∨ r_up ≥ 110) : probabilityLog summons r_up memo = some (0, memo, []) := by
  rw [probabilityLog, dif_pos h]
  norm_num

theorem probability_base (summons r_up : Int) (memo : Memo)
    (h : summons ≤ 0 ∨ r_up ≥ 110) : probability summons r_up memo = some (0, memo) := by
  rw [probability, dif_pos h]
  norm_num

/-- Dropping the log from `probabilityLog` gives `probability`. -/
theorem probabilityLog_erase (n : Nat) : ∀ (summons r_up : Int) (memo : Memo), summons ≤ n →
    (probabilityLog summons r_up memo).map (fun x => (x.1, x.2.1))
      = probability summons r_up memo := by
  induction n using Nat.strong_induction_on with
  | _ n ih =>
    intro summons r_up memo hs
    by_cases h : summons ≤ 0 ∨ r_up ≥ 110
    · rw [probabilityLog_base _ _ _ h, probability_base _ _ _ h]
      rfl
    · have hlt : (summons - 1).toNat < n := by omega
      have i1 := ih _ hlt (summons - 1) 0 memo (by omega)
      rw [probabilityLog, probability, dif_neg h, dif_neg h]
      cases hc : memo r_up summons with
      | none => rfl
      | some cached =>
        simp only []
        by_cases hpos : cached.1 ≥ 0.0
        · rw [if_pos hpos, if_pos hpos]; rfl
        · rw [if_neg hpos, if_neg hpos]
          rw [← i1]
          cases h1 : probabilityLog (summons - 1) 0 memo with
          | none => rfl
          | some x1 =>
            obtain ⟨a, memo1, log1⟩ := x1
            simp only [Option.map_some']
            rw [← ih _ hlt (summons - 1) (r_up + 1) memo1 (by omega)]
            cases h2 : probabilityLog (summons - 1) (r_up + 1) memo1 with
            | none => rfl
            | some x2 =>
              obtain ⟨b, memo2, log2⟩ := x2
              simp only [Option.map_some']
              rw [← ih _ hlt (summons - 10) 0 memo2 (by omega)]
              cases h3 : probabilityLog (summons - 10) 0 memo2 with
              | none => rfl
              | some x3 =>
                obtain ⟨c, memo3, log3⟩ := x3
                simp only [Option.map_some']
                rw [← ih _ hlt (summons - 10) (r_up + 10) memo3 (by omega)]
                cases h4 : probabilityLog (summons - 10) (r_up + 10) memo3 with
                | none => rfl
                | some x4 =>
                  obtain ⟨d, memo4, log4⟩ := x4
                  simp only [Option.map_some']
                  cases h5 : memo4.write r_up summons (decision summons
                      (ft_prob r_up + nft_prob r_up * a + n_prob r_up * b)
                      (tfold_ft_prob r_up + tfold_nft_prob r_up * c + tfold_n_prob r_up * d)) with
                  | none => rfl
                  | some memo5 => rfl

/-- A budget above `summons` is never used up: the fuelled function then
returns what `probability` returns. -/
theorem probabilityFuel_eq (fuel : Nat) : ∀ (summons r_up : Int) (memo : Memo),
    summons.toNat < fuel →
    probabilityFuel fuel summons r_up memo = some (probability summons r_up memo) := by
  induction fuel with
  | zero => intro summons r_up memo h; exact absurd h (Nat.not_lt_zero _)
  | succ fuel ih =>
    intro summons r_up memo hs
    by_cases h : summons ≤ 0 ∨ r_up ≥ 110
    · rw [probabilityFuel, if_pos h, probability_base _ _ _ h]
      norm_num
    · rw [probabilityFuel, probability, if_neg h, dif_neg h]
      cases hc : memo r_up summons with
      | none => rfl
      | some cached =>
        simp only []
        by_cases hpos : cached.1 ≥ 0.0
        · rw [if_pos hpos, if_pos hpos]
        · rw [if_neg hpos, if_neg hpos]
          rw [ih (summons - 1) 0 memo (by omega)]
          cases h1 : probability (summons - 1) 0 memo with
          | none => rfl
          | some x1 =>
            obtain ⟨a, memo1⟩ := x1
            simp only []
            rw [ih (summons - 1) (r_up + 1) memo1 (by omega)]
            cases h2 : probability (summons - 1) (r_up + 1) memo1 with
            | none => rfl
            | some x2 =>
              obtain ⟨b, memo2⟩ := x2
              simp only []
              rw [ih (summons - 10) 0 memo2 (by omega)]
              cases h3 : probability (summons - 10) 0 memo2 with
              | none => rfl
              | some x3 =>
                obtain ⟨c, memo3⟩ := x3
                simp only []
                rw [ih (summons - 10) (r_up + 10) memo3 (by omega)]
                cases h4 : probability (summons - 10) (r_up + 10) memo3 with
                | none => rfl
                | some x4 =>
                  obtain ⟨d, memo4⟩ := x4
                  simp only []
                  cases h5 : memo4.write r_up summons (decision summons
                      (ft_prob r_up + nft_prob r_up * a + n_prob r_up * b)
                      (tfold_ft_prob r_up + tfold_nft_prob r_up * c + tfold_n_prob r_up * d)) with
                  | none => rfl
                  | some memo5 => rfl

theorem writes_append (l1 l2 : List Access) : writes (l1 ++ l2) = writes l1 ++ writes l2 := by
  induction l1 with
  | nil => rfl
  | cons a l ih =>
    by_cases h : a.write
    · simp [writes, h, ih]
    · simp [writes, h, ih]

theorem mem_writes {log : List Access} {rc : Int × Int} (h : rc ∈ writes log) :
    ∃ a ∈ log, a.row = rc.1 ∧ a.col = rc.2 := by
  induction log with
  | nil => simp [writes] at h
  | cons a l ih =>
    by_cases hw : a.write
    · simp only [writes, hw, if_true, List.mem_cons] at h
      rcases h with h | h
      · exact ⟨a, List.mem_cons_self _ _, by rw [h], by rw [h]⟩
      · obtain ⟨b, hb, hb2⟩ := ih h
        exact ⟨b, List.mem_cons_of_mem _ hb, hb2⟩
    · simp only [writes, hw] at h
      obtain ⟨b, hb, hb2⟩ := ih h
      exact ⟨b, List.mem_cons_of_mem _ hb, hb2⟩

theorem WritesOnce.nil (memo : Memo) : WritesOnce memo memo [] :=
  ⟨List.nodup_nil, fun _ h => absurd h (List.not_mem_nil _),
    fun _ h => absurd h (List.not_mem_nil _), fun _ _ _ => rfl⟩

theorem WritesOnce.append {m1 m2 m3 : Memo} {w1 w2 : List (Int × Int)}
    (h12 : WritesOnce m1 m2 w1) (h23 : WritesOnce m2 m3 w2) : WritesOnce m1 m3 (w1 ++ w2) := by
  have hdisj : ∀ rc, rc ∈ w1 → rc ∈ w2 → False := by
    intro rc i1 i2
    obtain ⟨cell, hcell, hpos⟩ := h12.filled rc i1
    obtain ⟨old, hold, hneg⟩ := h23.fresh rc i2
    rw [hcell] at hold
    rw [Option.some.inj hold] at hpos
    exact absurd hpos (not_le.mpr hneg)
  refine ⟨List.nodup_append.mpr ⟨h12.nodup, h23.nodup, fun rc i1 i2 => hdisj rc i1 i2⟩, ?_, ?_, ?_⟩
  · intro rc hrc
    rcases List.mem_append.mp hrc with i1 | i2
    · exact h12.fresh rc i1
    · obtain ⟨old, hold, hneg⟩ := h23.fresh rc i2
      have hnot : (rc.1, rc.2) ∉ w1 := fun i1 => hdisj rc i1 i2
      exact ⟨old, by rw [← h12.frame rc.1 rc.2 hnot]; exact hold, hneg⟩
  · intro rc hrc
    rcases List.mem_append.mp hrc with i1 | i2
    · obtain ⟨cell, hcell, hpos⟩ := h12.filled rc i1
      have hnot : (rc.1, rc.2) ∉ w2 := fun i2 => hdisj rc i1 i2
      exact ⟨cell, by rw [h23.frame rc.1 rc.2 hnot]; exact hcell, hpos⟩
    · exact h23.filled rc i2
  · intro r c hrc
    rw [List.mem_append, not_or] at hrc
    rw [h23.frame r c hrc.2, h12.frame r c hrc.1]

/-- A cell that is computed in the first table is not among the written cells
and keeps its content. -/
theorem WritesOnce.keeps {memo memo2 : Memo} {ws : List (Int × Int)}
    (h : WritesOnce memo memo2 ws) (r c : Int) (cell : pdi) (hcell : memo r c = some cell)
    (hpos : 0 ≤ cell.1) : (r, c) ∉ ws ∧ memo2 r c = some cell := by
  have hnot : (r, c) ∉ ws := by
    intro hin
    obtain ⟨old, hold, hneg⟩ := h.fresh (r, c) hin
    rw [hcell] at hold
    rw [Option.some.inj hold] at hpos
    exact absurd hpos (not_le.mpr hneg)
  exact ⟨hnot, by rw [h.frame r c hnot]; exact hcell⟩

theorem probability_of_log {summons r_up : Int} {memo memo2 : Memo} {v : ℚ}
    {log : List Access} (h : probabilityLog summons r_up memo = some (v, memo2, log)) :
    probability summons r_up memo = some (v, memo2) := by
  rw [← probabilityLog_erase summons.toNat summons r_up memo (by omega), h]
  rfl

/-- On a valid table the logged function returns the value of the plain
recursion; every access it logs lies in rows `0..109` and columns
`1..summons`; and the cells it writes are written once, were not computed
before and are computed afterwards, all other cells keeping their content. -/
theorem probabilityLog_spec (n : Nat) : ∀ (summons r_up : Int) (memo : Memo),
    summons ≤ n → summons ≤ 1000 → 0 ≤ r_up → Valid memo →
    ∃ memo2 log, probabilityLog summons r_up memo = some (value summons r_up, memo2, log)
      ∧ Valid memo2
      ∧ (∀ a ∈ log, 0 ≤ a.row ∧ a.row < 110 ∧ 1 ≤ a.col ∧ a.col ≤ summons)
      ∧ WritesOnce memo memo2 (writes log) := by
  induction n using Nat.strong_induction_on with
  | _ n ih =>
    intro summons r_up memo hs hs2 hr hv
    by_cases h : summons ≤ 0 ∨ r_up ≥ 110
    · refine ⟨memo, [], ?_, hv, fun a ha => absurd ha (List.not_mem_nil _), WritesOnce.nil memo⟩
      rw [probabilityLog_base _ _ _ h, value_base _ _ h]
    · have hs0 : 0 < summons := by omega
      have hr1 : r_up < 110 := by omega
      obtain ⟨cached, hcached, hok⟩ := hv r_up summons hr hr1 (by omega) hs2
      by_cases hc : cached.1 ≥ 0.0
      · refine ⟨memo, [⟨false, r_up, summons⟩, ⟨false, r_up, summons⟩], ?_, hv, ?_,
          WritesOnce.nil memo⟩
        · rw [probabilityLog, dif_neg h]
          simp only [hcached]
          rw [if_pos hc]
          rcases hok with hsen | ⟨hval, _⟩
          · rw [hsen] at hc
            unfold sentinel at hc
            norm_num at hc
          · rw [hval]
        · intro a ha
          simp only [List.mem_cons, List.mem_singleton, List.not_mem_nil, or_false, or_self] at ha
          rw [ha]
          exact ⟨hr, hr1, (by omega : 1 ≤ summons), le_refl _⟩
      · have hlt : (summons - 1).toNat < n := by omega
        obtain ⟨memo1, log1, e1, v1, r1, w1⟩ :=
          ih _ hlt (summons - 1) 0 memo (by omega) (by omega) (le_refl 0) hv
        obtain ⟨memo2, log2, e2, v2, r2, w2⟩ :=
          ih _ hlt (summons - 1) (r_up + 1) memo1 (by omega) (by omega) (by omega) v1
        obtain ⟨memo3, log3, e3, v3, r3, w3⟩ :=
          ih _ hlt (summons - 10) 0 memo2 (by omega) (by omega) (le_refl 0) v2
        obtain ⟨memo4, log4, e4, v4, r4, w4⟩ :=
          ih _ hlt (summons - 10) (r_up + 10) memo3 (by omega) (by omega) (by omega) v3
        have w04 : WritesOnce memo memo4
            (writes log1 ++ writes log2 ++ writes log3 ++ writes log4) :=
          ((w1.append w2).append w3).append w4
        have rsub : ∀ a, a ∈ log1 ∨ a ∈ log2 ∨ a ∈ log3 ∨ a ∈ log4 →
            0 ≤ a.row ∧ a.row < 110 ∧ 1 ≤ a.col ∧ a.col ≤ summons - 1 := by
          intro a ha
          rcases ha with ha | ha | ha | ha
          · have := r1 a ha; omega
          · have := r2 a ha; omega
          · have := r3 a ha; omega
          · have := r4 a ha; omega
        have hnot : (r_up, summons) ∉ writes log1 ++ writes log2 ++ writes log3 ++ writes log4 := by
          intro hin
          simp only [List.mem_append] at hin
          have hcol : ∃ a, (a ∈ log1 ∨ a ∈ log2 ∨ a ∈ log3 ∨ a ∈ log4) ∧ a.col = summons := by
            rcases hin with ((hin | hin) | hin) | hin
            · obtain ⟨a, ha, _, hcol⟩ := mem_writes hin
              exact ⟨a, Or.inl ha, hcol⟩
            · obtain ⟨a, ha, _, hcol⟩ := mem_writes hin
              exact ⟨a, Or.inr (Or.inl ha), hcol⟩
            · obtain ⟨a, ha, _, hcol⟩ := mem_writes hin
              exact ⟨a, Or.inr (Or.inr (Or.inl ha)), hcol⟩
            · obtain ⟨a, ha, _, hcol⟩ := mem_writes hin
              exact ⟨a, Or.inr (Or.inr (Or.inr ha)), hcol⟩
          obtain ⟨a, ha, hcol⟩ := hcol
          have := rsub a ha
          omega
        have hold : memo4 r_up summons = some cached := by
          rw [w04.frame r_up summons hnot]; exact hcached
        have hneg : cached.1 < 0 := by norm_num at hc; exact hc
        have hval : value summons r_up = (decision summons
            (single_success value summons r_up) (tenfold_success value summons r_up)).1 :=
          value_step _ _ h
        have elog : probabilityLog summons r_up memo = some (value summons r_up,
            (fun r2 c2 => if r2 = r_up ∧ c2 = summons
              then some (decision summons (single_success value summons r_up)
                (tenfold_success value summons r_up)) else memo4 r2 c2),
            ⟨false, r_up, summons⟩ :: (log1 ++ log2 ++ log3 ++ log4 ++
              (if summons < 10 ∨ single_success value summons r_up
                  > tenfold_success value summons r_up then [⟨true, r_up, summons⟩]
                else [⟨true, r_up, summons⟩, ⟨false, r_up, summons⟩]))) := by
          rw [probabilityLog, dif_neg h]
          simp only [hcached]
          rw [if_neg hc]
          simp only [e1, e2, e3, e4]
          rw [write_eq memo4 r_up summons _ cached hold, hval]
          rfl
        have hwrites : writes (⟨false, r_up, summons⟩ :: (log1 ++ log2 ++ log3 ++ log4 ++
              (if summons < 10 ∨ single_success value summons r_up
                  > tenfold_success value summons r_up then [⟨true, r_up, summons⟩]
                else [⟨true, r_up, summons⟩, ⟨false, r_up, summons⟩])))
            = (writes log1 ++ writes log2 ++ writes log3 ++ writes log4)
              ++ [(r_up, summons)] := by
          split <;> simp [writes, writes_append]
        have w45 : WritesOnce memo4
            (fun r2 c2 => if r2 = r_up ∧ c2 = summons
              then some (decision summons (single_success value summons r_up)
                (tenfold_success value summons r_up)) else memo4 r2 c2)
            [(r_up, summons)] := by
          refine ⟨List.nodup_singleton _, ?_, ?_, ?_⟩
          · intro rc hrc
            rw [List.mem_singleton] at hrc
            rw [hrc]
            exact ⟨cached, hold, hneg⟩
          · intro rc hrc
            rw [List.mem_singleton] at hrc
            rw [hrc]
            exact ⟨_, if_pos ⟨rfl, rfl⟩, by rw [← hval]; exact value_nonneg _ _ hr⟩
          · intro r c hrc
            rw [List.mem_singleton] at hrc
            exact if_neg (fun hcon => hrc (by rw [hcon.1, hcon.2]))
        obtain ⟨memo5, e5, v5, _⟩ := probability_value summons r_up memo hs2 hr hv
        have hsame := probability_of_log elog
        rw [e5] at hsame
        have hm5 := (Prod.mk.inj (Option.some.inj hsame)).2
        refine ⟨_, _, elog, by rw [← hm5]; exact v5, ?_, by rw [hwrites]; exact w04.append w45⟩
        intro a ha
        rw [List.mem_cons] at ha
        rcases ha with ha | ha
        · rw [ha]; exact ⟨hr, hr1, (by omega : 1 ≤ summons), le_refl _⟩
        · simp only [List.mem_append] at ha
          rcases ha with (((ha | ha) | ha) | ha) | ha
          · have := rsub a (Or.inl ha); omega
          · have := rsub a (Or.inr (Or.inl ha)); omega
          · have := rsub a (Or.inr (Or.inr (Or.inl ha))); omega
          · have := rsub a (Or.inr (Or.inr (Or.inr ha))); omega
          · have hcell : a.row = r_up ∧ a.col = summons := by
              split at ha
              · rw [List.mem_singleton] at ha; rw [ha]; exact ⟨rfl, rfl⟩
              · simp only [List.mem_cons, List.mem_singleton, List.not_mem_nil, or_false] at ha
                rcases ha with ha | ha <;> rw [ha] <;> exact ⟨rfl, rfl⟩
            rw [hcell.1, hcell.2]
            exact ⟨hr, hr1, (by omega : 1 ≤ summons), le_refl _⟩

theorem probabilityLog_value (summons r_up : Int) (memo : Memo) (hs : summons ≤ 1000)
    (hr : 0 ≤ r_up) (hv : Valid memo) :
    ∃ memo2 log, probabilityLog summons r_up memo = some (value summons r_up, memo2, log)
      ∧ Valid memo2
      ∧ (∀ a ∈ log, 0 ≤ a.row ∧ a.row < 110 ∧ 1 ≤ a.col ∧ a.col ≤ summons)
      ∧ WritesOnce memo memo2 (writes log) :=
  probabilityLog_spec summons.toNat summons r_up memo (by omega) hs hr hv

/-- A state whose cell is computed is answered from the table: two reads, no
write, the table unchanged. -/
theorem probabilityLog_cached (summons r_up : Int) (memo : Memo) (cell : pdi)
    (h : ¬(summons ≤ 0 ∨ r_up ≥ 110)) (hcell : memo r_up summons = some cell)
    (hpos : 0 ≤ cell.1) :
    probabilityLog summons r_up memo
      = some (cell.1, memo, [⟨false, r_up, summons⟩, ⟨false, r_up, summons⟩]) := by
  rw [probabilityLog, dif_neg h]
  simp only [hcell]
  rw [if_pos (by norm_num; exact hpos)]

/-- After a run on a valid table the cell of the state holds the value. -/
theorem probability_cell (summons r_up : Int) (memo : Memo) (hs0 : 0 < summons)
    (hs : summons ≤ 1000) (hr : 0 ≤ r_up) (hr1 : r_up < 110) (hv : Valid memo) :
    ∃ memo2 tag, probability summons r_up memo = some (value summons r_up, memo2)
      ∧ Valid memo2 ∧ memo2 r_up summons = some (value summons r_up, tag) := by
  obtain ⟨memo2, e, v2, _, hfin⟩ := probability_value summons r_up memo hs hr hv
  obtain ⟨cell, hcell, hpos⟩ := hfin hs0 hr1
  obtain ⟨cell2, hcell2, hok⟩ := v2 r_up summons hr hr1 (by omega) hs
  rw [hcell] at hcell2
  rw [← Option.some.inj hcell2] at hok
  rcases hok with hsen | ⟨hval, _⟩
  · rw [hsen] at hpos
    unfold sentinel at hpos
    norm_num at hpos
  · exact ⟨memo2, cell.2, e, v2, by rw [hcell, ← hval]⟩

theorem value_ge_ft_prob (summons r_up : Int) (hs : 1 ≤ summons) (h0 : 0 ≤ r_up)
    (h1 : r_up < 110) : ft_prob r_up ≤ value summons r_up := by
  have R := rates h0 h1
  rw [value_step _ _ (by omega)]
  refine le_trans ?_ (decision_ge_single _ _ _)
  unfold single_success
  have k1 := mul_nonneg R.nft_nonneg (value_nonneg (summons - 1) 0 (le_refl 0))
  have k2 := mul_nonneg R.n_nonneg (value_nonneg (summons - 1) (r_up + 1) (by omega))
  linarith

theorem tdiv_mono {p q : Int} (h0 : 0 ≤ p) (hpq : p ≤ q) : Int.tdiv p 10 ≤ Int.tdiv q 10 := by
  rw [Int.tdiv_eq_ediv h0 (by decide), Int.tdiv_eq_ediv (le_trans h0 hpq) (by decide)]
  omega

theorem pity_mono {p q : Int} (h0 : 0 ≤ p) (hpq : p ≤ q) : pity p ≤ pity q := by
  unfold pity
  have hq : ((Int.tdiv p 10 : Int) : ℚ) ≤ ((Int.tdiv q 10 : Int) : ℚ) := by
    exact_mod_cast tdiv_mono h0 hpq
  exact mul_le_mul_of_nonneg_right hq (by norm_num)

/-! ## The claims on the table accesses -/

/-- C11: a call of `probability` on a valid table (with `summons <= 1000` and
`r_up >= 0`) never modifies a cell that is already computed (first component
`>= 0`) and never writes to it; no cell is written twice during the call; and
evaluating the same state again on the table that the call leaves returns the
same value from the table, with no write and the whole table unchanged. -/
theorem C11_computed_cells_are_kept (summons r_up : Int) (memo : Memo)
    (hs : summons ≤ 1000) (hr : 0 ≤ r_up) (hv : Valid memo) :
    ∃ v memo2 log, probabilityLog summons r_up memo = some (v, memo2, log)
      ∧ probability summons r_up memo = some (v, memo2)
      ∧ (∀ (r c : Int) (cell : pdi), memo r c = some cell → 0 ≤ cell.1 →
          (r, c) ∉ writes log ∧ memo2 r c = some cell)
      ∧ (writes log).Nodup
      ∧ probability summons r_up memo2 = some (v, memo2)
      ∧ ∃ log2, probabilityLog summons r_up memo2 = some (v, memo2, log2)
          ∧ writes log2 = [] := by
  obtain ⟨memo2, log, e, v2, _, w⟩ := probabilityLog_value summons r_up memo hs hr hv
  have again : ∃ log2, probabilityLog summons r_up memo2 = some (value summons r_up, memo2, log2)
      ∧ writes log2 = [] := by
    by_cases h : summons ≤ 0 ∨ r_up ≥ 110
    · exact ⟨[], by rw [probabilityLog_base _ _ _ h, value_base _ _ h], rfl⟩
    · obtain ⟨memo3, tag, e3, _, hcell⟩ :=
        probability_cell summons r_up memo (by omega) hs hr (by omega) hv
      have hsame := probability_of_log e
      rw [e3] at hsame
      have hm : memo3 = memo2 := (Prod.mk.inj (Option.some.inj hsame)).2
      rw [hm] at hcell
      exact ⟨_, probabilityLog_cached summons r_up memo2 (value summons r_up, tag) h hcell
        (value_nonneg _ _ hr), rfl⟩
  obtain ⟨log2, e2, hw2⟩ := again
  exact ⟨_, memo2, log, e, probability_of_log e,
    fun r c cell hcell hpos => w.keeps r c cell hcell hpos, w.nodup,
    probability_of_log e2, log2, e2, hw2⟩

theorem C11_computed_cells_are_kept_witness :
    (1000 : Int) ≤ 1000 ∧ (0 : Int) ≤ 0 ∧ Valid mainMemo
    ∧ ∃ v memo2 log, probabilityLog 1000 0 mainMemo = some (v, memo2, log)
      ∧ probability 1000 0 mainMemo = some (v, memo2)
      ∧ (∀ (r c : Int) (cell : pdi), mainMemo r c = some cell → 0 ≤ cell.1 →
          (r, c) ∉ writes log ∧ memo2 r c = some cell)
      ∧ (writes log).Nodup
      ∧ probability 1000 0 memo2 = some (v, memo2)
      ∧ ∃ log2, probabilityLog 1000 0 memo2 = some (v, memo2, log2)
          ∧ writes log2 = [] :=
  ⟨by decide, by decide, mainMemo_valid,
    C11_computed_cells_are_kept 1000 0 mainMemo (by decide) (by decide) mainMemo_valid⟩

/-- C12, refuted as stated: with one summon left and pity `-1`, `probability`
does access the cell `memo[-1][1]`. On the table of `main` that cell is not
allocated; on a table that has it, the call reads it and returns its
content (here 5) instead of 0. -/
theorem C12_negative_pity_counterexample :
    probability 1 (-1) mainMemo = none
    ∧ probabilityLog 1 (-1) (fun _ _ => some (5, 1))
        = some (5, fun _ _ => some (5, 1), [⟨false, -1, 1⟩, ⟨false, -1, 1⟩]) := by
  constructor
  · rw [probability, dif_neg (by decide)]
    have hcell : mainMemo (-1) 1 = none := by
      unfold mainMemo
      rw [if_neg (by decide)]
    simp only [hcell]
  · exact probabilityLog_cached 1 (-1) (fun _ _ => some (5, 1)) (5, 1) (by decide) rfl
      (by norm_num)

/-- C12, amended: for every pity value `r_up >= 110`, every `summons` and every
table, `probability` returns 0 and leaves the table as it is, without any read
or write of a memo cell. -/
theorem C12_pity_at_or_above_bound (summons r_up : Int) (memo : Memo) (hr : 110 ≤ r_up) :
    probability summons r_up memo = some (0, memo)
    ∧ probabilityLog summons r_up memo = some (0, memo, []) :=
  ⟨probability_base _ _ _ (Or.inr hr), probabilityLog_base _ _ _ (Or.inr hr)⟩

theorem C12_pity_at_or_above_bound_witness :
    (110 : Int) ≤ 110
    ∧ (probability 1000 110 mainMemo = some (0, mainMemo)
      ∧ probabilityLog 1000 110 mainMemo = some (0, mainMemo, [])) :=
  ⟨by decide, C12_pity_at_or_above_bound 1000 110 mainMemo (by decide)⟩

/-- C13: for every pity value and every `summons <= 0`, `probability` returns 0
and leaves the table as it is, without any read or write of a memo cell. -/
theorem C13_no_summons_left (summons r_up : Int) (memo : Memo) (hs : summons ≤ 0) :
    probability summons r_up memo = some (0, memo)
    ∧ probabilityLog summons r_up memo = some (0, memo, [])
    ∧ value summons r_up = 0 :=
  ⟨probability_base _ _ _ (Or.inl hs), probabilityLog_base _ _ _ (Or.inl hs),
    value_base _ _ (Or.inl hs)⟩

theorem C13_no_summons_left_witness :
    (0 : Int) ≤ 0
    ∧ (probability 0 (-7) mainMemo = some (0, mainMemo)
      ∧ probabilityLog 0 (-7) mainMemo = some (0, mainMemo, [])
      ∧ value 0 (-7) = 0) :=
  ⟨by decide, C13_no_summons_left 0 (-7) mainMemo (by decide)⟩

/-- C14: from a start state with `summons <= 1000` and `r_up >= 0` (in
particular `0 <= summons <= 1000`, `0 <= r_up < 110`, and the root state
`(1000, 0)`), on the table of `main` and on every valid table, each access to
`memo` that `probability` makes has its row in `0..109` and its column in
`0..1000`; on the table of `main`, where nothing else is allocated, the call
returns a result. -/
theorem C14_accesses_inside_table (summons r_up : Int) (hs : summons ≤ 1000) (hr : 0 ≤ r_up) :
    (∀ memo : Memo, Valid memo →
      ∃ v memo2 log, probabilityLog summons r_up memo = some (v, memo2, log)
        ∧ ∀ a ∈ log, a.inTable)
    ∧ ∃ v memo2, probability summons r_up mainMemo = some (v, memo2) := by
  constructor
  · intro memo hv
    obtain ⟨memo2, log, e, _, hrange, _⟩ := probabilityLog_value summons r_up memo hs hr hv
    refine ⟨_, memo2, log, e, fun a ha => ?_⟩
    have := hrange a ha
    unfold Access.inTable
    omega
  · obtain ⟨memo2, e, _⟩ := probability_value summons r_up mainMemo hs hr mainMemo_valid
    exact ⟨_, memo2, e⟩

theorem C14_accesses_inside_table_witness :
    (1000 : Int) ≤ 1000 ∧ (0 : Int) ≤ 0
    ∧ ((∀ memo : Memo, Valid memo →
        ∃ v memo2 log, probabilityLog 1000 0 memo = some (v, memo2, log)
          ∧ ∀ a ∈ log, a.inTable)
      ∧ ∃ v memo2, probability 1000 0 mainMemo = some (v, memo2)) :=
  ⟨by decide, by decide, C14_accesses_inside_table 1000 0 (by decide) (by decide)⟩

/-! ## The claims on the rates, on termination and on the sentinel -/

/-- C15: for every pity `r_up >= 0`, with `r_up / 10` rounded down,
`ft_prob r_up = (RATE / BASE) * (BASE + (r_up / 10) * 0.005)`; the featured share
`ft_prob / (ft_prob + nft_prob)` of the 5* rate is `RATE / BASE = 1/4`, which is
`ft_guaranteed_prob`. -/
theorem C15_featured_share_constant (r_up : Int) (h0 : 0 ≤ r_up) :
    ft_prob r_up = (RATE / BASE) * (BASE + ((r_up / 10 : Int) : ℚ) * 0.005)
    ∧ ft_prob r_up / (ft_prob r_up + nft_prob r_up) = RATE / BASE
    ∧ RATE / BASE = 1 / 4
    ∧ ft_guaranteed_prob = 1 / 4 := by
  have hp : pity r_up = ((r_up / 10 : Int) : ℚ) * 0.005 := by
    unfold pity
    rw [Int.tdiv_eq_ediv h0 (by decide)]
  have hquarter : RATE / BASE = 1 / 4 := by
    unfold RATE BASE
    norm_num
  have hsum : ft_prob r_up + nft_prob r_up = 1 / 25 + pity r_up := by
    rw [ft_prob_eq, nft_prob_eq]
    ring
  have hpos : 0 < 1 / 25 + pity r_up := by
    have := pity_nonneg h0
    linarith
  refine ⟨?_, ?_, hquarter, ?_⟩
  · rw [hquarter, ← hp, ft_prob_eq]
    unfold BASE
    norm_num
    ring
  · rw [hquarter, hsum, ft_prob_eq, div_eq_iff (ne_of_gt hpos)]
    ring
  · unfold ft_guaranteed_prob
    exact hquarter

theorem C15_featured_share_constant_witness :
    (0 : Int) ≤ 109
    ∧ (ft_prob 109 = (RATE / BASE) * (BASE + (((109 : Int) / 10 : Int) : ℚ) * 0.005)
      ∧ ft_prob 109 / (ft_prob 109 + nft_prob 109) = RATE / BASE
      ∧ RATE / BASE = 1 / 4
      ∧ ft_guaranteed_prob = 1 / 4) :=
  ⟨by decide, C15_featured_share_constant 109 (by decide)⟩

/-- C16: `ft_prob` is non-decreasing in the pity counter: for `0 <= p <= q`,
`ft_prob p <= ft_prob q`. -/
theorem C16_ft_prob_monotone (p q : Int) (h0 : 0 ≤ p) (hpq : p ≤ q) :
    ft_prob p ≤ ft_prob q := by
  rw [ft_prob_eq, ft_prob_eq]
  have := pity_mono h0 hpq
  linarith

theorem C16_ft_prob_monotone_witness :
    (0 : Int) ≤ 9 ∧ (9 : Int) ≤ 10 ∧ ft_prob 9 ≤ ft_prob 10 :=
  ⟨by decide, by decide, C16_ft_prob_monotone 9 10 (by decide) (by decide)⟩

/-- C17: the recursion of `probability` terminates on every input. The function
is defined by well-founded recursion on `summons`; run with a budget for the
depth of the recursion, it never uses up a budget above `summons` (a budget of
1 is enough when `summons <= 0`, where it returns at once), and every
recursive call of a state that passes the guard has a smaller `summons`. -/
theorem C17_probability_terminates (summons r_up : Int) (memo : Memo) :
    (∀ fuel : Nat, summons.toNat < fuel →
      probabilityFuel fuel summons r_up memo = some (probability summons r_up memo))
    ∧ probabilityFuel (summons.toNat + 1) summons r_up memo
        = some (probability summons r_up memo)
    ∧ (summons ≤ 0 → probability summons r_up memo = some (0, memo))
    ∧ (¬(summons ≤ 0 ∨ r_up ≥ 110) →
        (summons - 1).toNat < summons.toNat ∧ (summons - 10).toNat < summons.toNat) :=
  ⟨fun fuel h => probabilityFuel_eq fuel summons r_up memo h,
    probabilityFuel_eq _ summons r_up memo (Nat.lt_succ_self _),
    fun h => probability_base _ _ _ (Or.inl h),
    fun h => by omega⟩

/-- C18: for `0 <= r_up < 110` each of the six outcome probabilities lies in
`[0, 1]`; in particular `tfold_nft_prob r_up` is not negative. -/
theorem C18_outcome_probabilities_in_unit_interval (r_up : Int) (h0 : 0 ≤ r_up)
    (h1 : r_up < 110) :
    (0 ≤ ft_prob r_up ∧ ft_prob r_up ≤ 1)
    ∧ (0 ≤ nft_prob r_up ∧ nft_prob r_up ≤ 1)
    ∧ (0 ≤ n_prob r_up ∧ n_prob r_up ≤ 1)
    ∧ (0 ≤ tfold_ft_prob r_up ∧ tfold_ft_prob r_up ≤ 1)
    ∧ (0 ≤ tfold_nft_prob r_up ∧ tfold_nft_prob r_up ≤ 1)
    ∧ (0 ≤ tfold_n_prob r_up ∧ tfold_n_prob r_up ≤ 1) := by
  have R := rates h0 h1
  have a1 := R.ft_ge
  have a2 := R.nft_nonneg
  have a3 := R.n_nonneg
  have a4 := R.single_sum
  have b1 := R.tft_nonneg
  have b2 := R.tnft_nonneg
  have b3 := R.tn_nonneg
  have b4 := R.tenfold_sum
  refine ⟨⟨?_, ?_⟩, ⟨a2, ?_⟩, ⟨a3, ?_⟩, ⟨b1, ?_⟩, ⟨b2, ?_⟩, ⟨b3, ?_⟩⟩ <;> linarith

theorem C18_outcome_probabilities_in_unit_interval_witness :
    (0 : Int) ≤ 100 ∧ (100 : Int) < 110
    ∧ ((0 ≤ ft_prob 100 ∧ ft_prob 100 ≤ 1)
      ∧ (0 ≤ nft_prob 100 ∧ nft_prob 100 ≤ 1)
      ∧ (0 ≤ n_prob 100 ∧ n_prob 100 ≤ 1)
      ∧ (0 ≤ tfold_ft_prob 100 ∧ tfold_ft_prob 100 ≤ 1)
      ∧ (0 ≤ tfold_nft_prob 100 ∧ tfold_nft_prob 100 ≤ 1)
      ∧ (0 ≤ tfold_n_prob 100 ∧ tfold_n_prob 100 ≤ 1)) :=
  ⟨by decide, by decide,
    C18_outcome_probabilities_in_unit_interval 100 (by decide) (by decide)⟩

/-- C19: for `summons >= 1` and `0 <= r_up < 110` the value is at least
`ft_prob r_up >= 1/100`, hence positive, and `value 1 r_up = ft_prob r_up`; after a
run of `probability` on a valid table (with `summons <= 1000`) the cell of the
state holds that value, so it passes the test `first >= 0.0` and is not the
sentinel. -/
theorem C19_value_positive (summons r_up : Int) (hs : 1 ≤ summons) (h0 : 0 ≤ r_up)
    (h1 : r_up < 110) :
    1 / 100 ≤ ft_prob r_up
    ∧ ft_prob r_up ≤ value summons r_up
    ∧ 0 < value summons r_up
    ∧ value 1 r_up = ft_prob r_up
    ∧ ∀ memo : Memo, Valid memo → summons ≤ 1000 →
        ∃ memo2 cell, probability summons r_up memo = some (value summons r_up, memo2)
          ∧ memo2 r_up summons = some cell ∧ cell.1 = value summons r_up
          ∧ cell.1 ≥ 0.0 ∧ cell ≠ sentinel := by
  have hft : 1 / 100 ≤ ft_prob r_up := (rates h0 h1).ft_ge
  have hge : ft_prob r_up ≤ value summons r_up := value_ge_ft_prob summons r_up hs h0 h1
  have hpos : 0 < value summons r_up := by linarith
  refine ⟨hft, hge, hpos, value_one r_up h1, fun memo hv hs2 => ?_⟩
  obtain ⟨memo2, tag, e, _, hcell⟩ :=
    probability_cell summons r_up memo (by omega) hs2 h0 h1 hv
  refine ⟨memo2, (value summons r_up, tag), e, hcell, rfl, ?_, ?_⟩
  · norm_num
    exact le_of_lt hpos
  · intro hcon
    have h1 : value summons r_up = -1.0 := (Prod.mk.inj hcon).1
    rw [h1] at hpos
    norm_num at hpos

theorem C19_value_positive_witness :
    (1 : Int) ≤ 1000 ∧ (0 : Int) ≤ 0 ∧ (0 : Int) < 110
    ∧ (1 / 100 ≤ ft_prob 0
      ∧ ft_prob 0 ≤ value 1000 0
      ∧ 0 < value 1000 0
      ∧ value 1 0 = ft_prob 0
      ∧ ∀ memo : Memo, Valid memo → (1000 : Int) ≤ 1000 →
        ∃ memo2 cell, probability 1000 0 memo = some (value 1000 0, memo2)
          ∧ memo2 0 1000 = some cell ∧ cell.1 = value 1000 0
          ∧ cell.1 ≥ 0.0 ∧ cell ≠ sentinel) :=
  ⟨by decide, by decide, by decide,
    C19_value_positive 1000 0 (by decide) (by decide) (by decide)⟩

end DLSummon
